import Mathlib

set_option maxHeartbeats 1000000

/- Shallow embedding of the frequency-domain voice anonymizer of this
repository.  Two source variants carry the algorithmic content and are both
embedded here:

  * the `lib` variant, src/lib/audioProcessor.ts (iterative FFT, effect body
    gated on the three boolean toggles, scrambling destination
    (j + Math.floor(j*0.5)) % chunkSize, time shaper tanh(sample*amount));
  * the `fix` variant, the deterministic-scrambling revision of the same
    class kept in src/unnamed/part_000 (same FFT, ungated effect body,
    scrambling destination from the (j*8273) offset formula, time shaper
    tanh(sample*amount)/tanh(amount)).

A complex window of N bins is modelled as a total function from the bin
index to the complex value held at the interleaved pair
(buffer[2*j], buffer[2*j+1]); in-place mutation is explicit state passing
with Function.update, and every loop is a List.foldl over its index range in
program order.  Floating-point arithmetic is idealised as exact real
arithmetic; Math.random() becomes an arbitrary function argument giving the
draw consumed by each loop iteration. -/

/-- JS reverseBits helper, accumulator form of the loop
`result = (result << 1) | (x & 1); x >>= 1` run `bits` times. -/
def reverseBitsAux : ℕ → ℕ → ℕ → ℕ
  | x, bits + 1, acc => reverseBitsAux (x / 2) bits (2 * acc + x % 2)
  | _, 0, acc => acc

/-- AudioProcessor.reverseBits(x, bits): reverse the low `bits` bits of `x`. -/
def reverseBits (x bits : ℕ) : ℕ := reverseBitsAux x bits 0

/-- Twiddle factor used by one butterfly of AudioProcessor.forwardFFT:
`angle = -2π/size`, and the complex factor is
`cos(angle*j) + i*sin(angle*j) = exp((angle*j)*I)`. -/
noncomputable def tw (size j : ℕ) : ℂ :=
  Complex.exp ((((-2) * Real.pi / (size : ℝ)) * (j : ℝ) : ℝ) * Complex.I)

/-- Twiddle with an integer index, used to state DFT sum identities. -/
noncomputable def twInt (N : ℕ) (m : ℤ) : ℂ :=
  Complex.exp ((((-2) * Real.pi / (N : ℝ)) * (m : ℝ) : ℝ) * Complex.I)

/-- One conditional swap of the bit-reversal loop of forwardFFT:
`j = reverseBits(i, bits); if (j > i) swap the complex pairs at i and j`. -/
def swapStep (bits : ℕ) (a : ℕ → ℂ) (i : ℕ) : ℕ → ℂ :=
  if i < reverseBits i bits then
    Function.update (Function.update a i (a (reverseBits i bits))) (reverseBits i bits) (a i)
  else a

/-- Bit-reversal pass of forwardFFT: the `for (i = 0; i < N; i++)` loop of
conditional swaps. -/
def bitRevPass (bits : ℕ) (a : ℕ → ℂ) : ℕ → ℂ :=
  (List.range (2 ^ bits)).foldl (swapStep bits) a

/-- One butterfly of forwardFFT at block start `i0` and offset `j`
(size = 2*half): reads the complex pairs at evenIndex = i0+j and
oddIndex = i0+j+half, writes even+t*odd and even-t*odd back to them. -/
noncomputable def bflyStep (size i0 : ℕ) (a : ℕ → ℂ) (j : ℕ) : ℕ → ℂ :=
  Function.update
    (Function.update a (i0 + j) (a (i0 + j) + tw size j * a (i0 + j + size / 2)))
    (i0 + j + size / 2)
    (a (i0 + j) - tw size j * a (i0 + j + size / 2))

/-- Inner butterfly loop `for (j = 0; j < halfSize; j++)` of one block. -/
noncomputable def blockStep (size : ℕ) (a : ℕ → ℂ) (b : ℕ) : ℕ → ℂ :=
  (List.range (size / 2)).foldl (bflyStep size (b * size)) a

/-- One stage of the iterative Cooley–Tukey loop: the block loop
`for (i = 0; i < N; i += size)`; in forwardFFT `size` always divides `N`,
so the block starts are `b*size` for `b < N/size`. -/
noncomputable def stageApply (N size : ℕ) (a : ℕ → ℂ) : ℕ → ℂ :=
  (List.range (N / size)).foldl (blockStep size) a

/-- Stage sizes 2, 4, ..., 2^bits of the loop
`for (size = 2; size <= N; size *= 2)`. -/
def stagesList (bits : ℕ) : List ℕ := (List.range bits).map (fun s => 2 ^ (s + 1))

/-- First `s` stages of forwardFFT applied to an already bit-reversed state. -/
noncomputable def stagesUpTo (bits s : ℕ) (a0 : ℕ → ℂ) : ℕ → ℂ :=
  ((List.range s).map (fun t => 2 ^ (t + 1))).foldl
    (fun acc size => stageApply (2 ^ bits) size acc) a0

/-- AudioProcessor.forwardFFT on a window of N = 2^bits complex samples:
bit-reversal permutation followed by the iterative butterfly stages. -/
noncomputable def forwardFFT (bits : ℕ) (a : ℕ → ℂ) : ℕ → ℂ :=
  stagesUpTo bits bits (bitRevPass bits a)

/-- Conjugation loop of inverseFFT (`buffer[i+1] = -buffer[i+1]` over the N
complex pairs of the buffer). -/
def conjPass (N : ℕ) (a : ℕ → ℂ) : ℕ → ℂ :=
  fun i => if i < N then (starRingEnd ℂ) (a i) else a i

/-- AudioProcessor.inverseFFT: conjugate, run forwardFFT, conjugate again and
divide both components by N. -/
noncomputable def inverseFFT (bits : ℕ) (a : ℕ → ℂ) : ℕ → ℂ :=
  fun i =>
    if i < 2 ^ bits then
      (starRingEnd ℂ) (forwardFFT bits (conjPass (2 ^ bits) a) i) / ((2 ^ bits : ℕ) : ℂ)
    else forwardFFT bits (conjPass (2 ^ bits) a) i

/-- Discrete Fourier transform with kernel exp(-2πi*t*k/N), the reference
semantics proved for forwardFFT. -/
noncomputable def dft (N : ℕ) (a : ℕ → ℂ) (k : ℕ) : ℂ :=
  ∑ t ∈ Finset.range N, a t * tw N (t * k)

/-- VoiceSettings configuration record (src/components/VoiceSettings.tsx).
frequencyScrambleRange is read only by the part_000 variant
(default 0.002 there). -/
structure VoiceSettings where
  phaseMultiplier : ℝ
  frequencyShiftMultiplier : ℝ
  harmonicAmount : ℝ
  noiseAmount : ℝ
  useFrequencyScrambling : Bool
  useAdditionalPhaseDistortion : Bool
  useTimeDistortion : Bool
  timeDistortionAmount : ℝ
  frequencyScrambleRange : ℝ

/-- JS Math.atan2(y, x): the argument of the complex number x + y*i. -/
noncomputable def atan2 (y x : ℝ) : ℝ := Complex.arg ⟨x, y⟩

/-- Bin magnitude `Math.sqrt(real*real + imag*imag)` read by the effect loop. -/
noncomputable def magnitudeOf (z : ℂ) : ℝ := Real.sqrt (z.re * z.re + z.im * z.im)

/-- Gate of the lib effect body: some toggle among useFrequencyScrambling,
useAdditionalPhaseDistortion, useTimeDistortion is set. -/
def gatePass (s : VoiceSettings) : Bool :=
  s.useFrequencyScrambling || s.useAdditionalPhaseDistortion || s.useTimeDistortion

/-- Phase update of the effect loop:
`phase = -phase*phaseMultiplier + π/2` followed by
`phase += (j/chunkSize)*2π*frequencyShiftMultiplier`. -/
noncomputable def newPhase (s : VoiceSettings) (N j : ℕ) (phase : ℝ) : ℝ :=
  (-phase * s.phaseMultiplier + Real.pi / 2) +
    ((j : ℝ) / (N : ℝ) * 2 * Real.pi) * s.frequencyShiftMultiplier

/-- Magnitude update of the effect loop:
`magnitude *= 1 + sin(j*harmonicAmount) + cos(j*harmonicAmount)
             + Math.random()*noiseAmount`,
with `rand j` the random draw consumed at bin j. -/
noncomputable def newMagnitude (s : VoiceSettings) (rand : ℕ → ℝ) (j : ℕ) (m : ℝ) : ℝ :=
  m * (1 + Real.sin ((j : ℝ) * s.harmonicAmount) + Real.cos ((j : ℝ) * s.harmonicAmount) +
    rand j * s.noiseAmount)

/-- Complex value written back to a bin:
`(magnitude*cos(phase), magnitude*sin(phase))`. -/
noncomputable def binValue (m phase : ℝ) : ℂ := ⟨m * Real.cos phase, m * Real.sin phase⟩

/-- Scrambling destination of the lib variant:
`targetBin = (j + Math.floor(j * 0.5)) % chunkSize`. -/
noncomputable def scrambleTarget_lib (N j : ℕ) : ℕ :=
  (j + Nat.floor ((j : ℝ) * 0.5)) % N

/-- Part_000 variant: `maxOffset = Math.floor(chunkSize * frequencyScrambleRange)`. -/
noncomputable def maxOffset_fix (N : ℕ) (r : ℝ) : ℤ := Int.floor ((N : ℝ) * r)

/-- Part_000 variant: `offset = ((j * 8273) % (2*maxOffset + 1)) - maxOffset`;
`Int.tmod` is the truncating remainder, the semantics of the JS `%` operator. -/
def offset_fix_aux (maxOffset : ℤ) (j : ℕ) : ℤ :=
  Int.tmod ((j : ℤ) * 8273) (2 * maxOffset + 1) - maxOffset

/-- Part_000 variant offset at scramble range `r`. -/
noncomputable def offset_fix (N : ℕ) (r : ℝ) (j : ℕ) : ℤ :=
  offset_fix_aux (maxOffset_fix N r) j

/-- Part_000 variant: `targetBin = (j + offset + chunkSize) % chunkSize`
(JS truncating remainder). -/
noncomputable def scrambleTarget_fix (N : ℕ) (r : ℝ) (j : ℕ) : ℤ :=
  Int.tmod ((j : ℤ) + offset_fix N r j + (N : ℤ)) (N : ℤ)

/-- Destination bin as the specification claim words it: maxOffset =
floor(N*r), offset = ((j*8273) mod (2*maxOffset+1)) - maxOffset, destination
= (j + offset + N) mod N with the mathematical (Euclidean) mod. -/
noncomputable def specTargetBin (N : ℕ) (r : ℝ) (j : ℕ) : ℤ :=
  ((j : ℤ) + (((j : ℤ) * 8273) % (2 * Int.floor ((N : ℝ) * r) + 1) -
    Int.floor ((N : ℝ) * r)) + (N : ℤ)) % (N : ℤ)

/-- One iteration of the lib effect loop (src/lib/audioProcessor.ts lines
135-175) at bin j: the whole body runs only when some toggle is set; it
reads the current buffer at j, rewrites magnitude and phase, writes the new
value to the (possibly scrambled) target bin, then, when
useAdditionalPhaseDistortion is set and j is even, negates both components
held at index j. -/
noncomputable def effectStep_lib (s : VoiceSettings) (rand : ℕ → ℝ) (N : ℕ)
    (f : ℕ → ℂ) (j : ℕ) : ℕ → ℂ :=
  if gatePass s then
    let m1 := newMagnitude s rand j (magnitudeOf (f j))
    let p1 := newPhase s N j (atan2 (f j).im (f j).re)
    let tgt := if s.useFrequencyScrambling then scrambleTarget_lib N j else j
    let f1 := Function.update f tgt (binValue m1 p1)
    if s.useAdditionalPhaseDistortion && j % 2 == 0 then
      Function.update f1 j (-(f1 j))
    else f1
  else f

/-- One iteration of the part_000 effect loop (lines 138-175): the magnitude
and phase rewrite runs unconditionally; with scrambling the write goes to
the deterministic target bin (a JS write at a negative index would be
discarded, hence the guard), otherwise to j; then the same conditional
negation at index j. -/
noncomputable def effectStep_fix (s : VoiceSettings) (rand : ℕ → ℝ) (N : ℕ)
    (f : ℕ → ℂ) (j : ℕ) : ℕ → ℂ :=
  let m1 := newMagnitude s rand j (magnitudeOf (f j))
  let p1 := newPhase s N j (atan2 (f j).im (f j).re)
  let f1 :=
    if s.useFrequencyScrambling then
      if 0 ≤ scrambleTarget_fix N s.frequencyScrambleRange j then
        Function.update f (scrambleTarget_fix N s.frequencyScrambleRange j).toNat
          (binValue m1 p1)
      else f
    else Function.update f j (binValue m1 p1)
  if s.useAdditionalPhaseDistortion && j % 2 == 0 then
    Function.update f1 j (-(f1 j))
  else f1

/-- State of the lib effect pass after the iterations j = 0, ..., k-1. -/
noncomputable def effectPassUpTo_lib (s : VoiceSettings) (rand : ℕ → ℝ) (N : ℕ)
    (f : ℕ → ℂ) (k : ℕ) : ℕ → ℂ :=
  (List.range k).foldl (effectStep_lib s rand N) f

/-- Full lib effect pass over the N bins of a window. -/
noncomputable def effectPass_lib (s : VoiceSettings) (rand : ℕ → ℝ) (N : ℕ)
    (f : ℕ → ℂ) : ℕ → ℂ :=
  effectPassUpTo_lib s rand N f N

/-- State of the part_000 effect pass after the iterations j = 0, ..., k-1. -/
noncomputable def effectPassUpTo_fix (s : VoiceSettings) (rand : ℕ → ℝ) (N : ℕ)
    (f : ℕ → ℂ) (k : ℕ) : ℕ → ℂ :=
  (List.range k).foldl (effectStep_fix s rand N) f

/-- Full part_000 effect pass over the N bins of a window. -/
noncomputable def effectPass_fix (s : VoiceSettings) (rand : ℕ → ℝ) (N : ℕ)
    (f : ℕ → ℂ) : ℕ → ℂ :=
  effectPassUpTo_fix s rand N f N

/-- Time-domain shaper of the lib variant (lines 209-215):
`sample = Math.tanh(sample * timeDistortionAmount)` when useTimeDistortion,
identity otherwise. -/
noncomputable def timeShaper_lib (s : VoiceSettings) (x : ℝ) : ℝ :=
  if s.useTimeDistortion then Real.tanh (x * s.timeDistortionAmount) else x

/-- Time-domain shaper of the part_000 variant (lines 208-215):
`sample = Math.tanh(sample*timeDistortionAmount) / Math.tanh(timeDistortionAmount)`
when useTimeDistortion, identity otherwise. -/
noncomputable def timeShaper_fix (s : VoiceSettings) (x : ℝ) : ℝ :=
  if s.useTimeDistortion then
    Real.tanh (x * s.timeDistortionAmount) / Real.tanh s.timeDistortionAmount
  else x

/-- Complex window built from one chunk of the input channel: the real parts
come from inputData[i+k] for k < currentChunkSize and the tail is
zero-padded; every imaginary part is zero. -/
def chunkWindow (input : List ℝ) (i cur : ℕ) : ℕ → ℂ :=
  fun k => if k < cur then ⟨input.getD (i + k) 0, 0⟩ else 0

/-- Frequency-domain processing of one chunk in the lib pipeline: forward
FFT (2^11 = 2048 complex samples), effect pass, inverse FFT. -/
noncomputable def processedChunk_lib (s : VoiceSettings) (rand : ℕ → ℝ)
    (input : List ℝ) (i cur : ℕ) : ℕ → ℂ :=
  inverseFFT 11 (effectPass_lib s rand 2048 (forwardFFT 11 (chunkWindow input i cur)))

/-- Copy-back loop of one chunk: for j < currentChunkSize the real part of
complex sample j is shaped and stored at outputData[i+j].  List.set ignores
indices past the end of the list, as a JS typed-array write does. -/
noncomputable def copyChunk (s : VoiceSettings) (w : ℕ → ℂ) (i cur : ℕ)
    (out : List ℝ) : List ℝ :=
  (List.range cur).foldl (fun acc j => acc.set (i + j) (timeShaper_lib s (w j).re)) out

/-- One iteration of the chunk loop of the lib pipeline: chunk q starts at
i = q*2048 and processes currentChunkSize = min(i+2048, length) - i samples,
copying them back into the output list. -/
noncomputable def chunkStep_lib (s : VoiceSettings) (rand : ℕ → ℕ → ℝ) (input : List ℝ)
    (out : List ℝ) (q : ℕ) : List ℝ :=
  copyChunk s
    (processedChunk_lib s (rand q) input (q * 2048)
      (min (q * 2048 + 2048) input.length - q * 2048))
    (q * 2048) (min (q * 2048 + 2048) input.length - q * 2048) out

/-- Per-channel chunked pipeline of the lib variant
(src/lib/audioProcessor.ts lines 86-226): chunks of 2048 samples starting at
i = 0, 2048, 4096, ... below the channel length, written over an output
channel of the input's length.  `rand q` gives the noise draws consumed in
chunk q. -/
noncomputable def anonymizeChannel_lib (s : VoiceSettings) (rand : ℕ → ℕ → ℝ)
    (input : List ℝ) : List ℝ :=
  (List.range ((input.length + 2047) / 2048)).foldl (chunkStep_lib s rand input)
    (List.replicate input.length 0)

/-- Little-endian bytes of DataView.setUint16. -/
def u16le (v : ℕ) : List ℕ := [v % 256, v / 256 % 256]

/-- Little-endian bytes of DataView.setUint32 (the value is taken mod 2^32). -/
def u32le (v : ℕ) : List ℕ :=
  [v % 256, v / 256 % 256, v / 2 ^ 16 % 256, v / 2 ^ 24 % 256]

/-- Clamp of one output sample: `Math.max(-1, Math.min(1, data[i]))`. -/
noncomputable def clampSample (x : ℝ) : ℝ := max (-1) (min 1 x)

/-- Scaled sample handed to setInt16:
`sample < 0 ? sample * 0x8000 : sample * 0x7FFF` applied to the clamp. -/
noncomputable def quantVal (x : ℝ) : ℝ :=
  if clampSample x < 0 then clampSample x * 0x8000 else clampSample x * 0x7FFF

/-- JS ToInt16 truncation toward zero of a (finite) number. -/
noncomputable def jsTrunc (v : ℝ) : ℤ := if 0 ≤ v then Int.floor v else Int.ceil v

/-- Unsigned 16-bit pattern stored by setInt16 (two's complement, mod 2^16). -/
def toUint16 (i : ℤ) : ℕ := (i % 65536).toNat

/-- Two little-endian payload bytes of one PCM sample. -/
noncomputable def i16le (x : ℝ) : List ℕ := u16le (toUint16 (jsTrunc (quantVal x)))

/-- Decoded multichannel float buffer handed to audioBufferToWav:
`length` is the per-channel sample count field of the AudioBuffer. -/
structure AudioBufferModel where
  channels : List (List ℝ)
  length : ℕ
  sampleRate : ℕ

/-- Entry m of the channel-major `data` Float32Array of audioBufferToWav:
channel i is copied to offset `buffer.length * i`, so entry m comes from
channel m / length at index m % length (0 where a channel left a gap). -/
def dataAt (b : AudioBufferModel) (m : ℕ) : ℝ :=
  (b.channels.getD (m / b.length) []).getD (m % b.length) 0

/-- The 44-byte canonical RIFF/WAVE header written by audioBufferToWav for
channel count C, per-channel sample count L and sample rate R
(`length = L * C * 2` is the payload byte count). -/
def wavHeader (C L R : ℕ) : List ℕ :=
  [82, 73, 70, 70] ++ u32le (36 + L * C * 2) ++
  [87, 65, 86, 69] ++ [102, 109, 116, 32] ++
  u32le 16 ++ u16le 1 ++ u16le C ++ u32le R ++ u32le (R * C * 2) ++
  u16le (C * 2) ++ u16le 16 ++
  [100, 97, 116, 97] ++ u32le (L * C * 2)

/-- Byte stream produced by AudioProcessor.audioBufferToWav: the header
followed by the 16-bit little-endian PCM encoding of the channel-major
sample array. -/
noncomputable def audioBufferToWav (b : AudioBufferModel) : List ℕ :=
  wavHeader b.channels.length b.length b.sampleRate ++
    (List.range (b.length * b.channels.length)).flatMap (fun m => i16le (dataAt b m))

/-! Helper bounds for the deterministic scrambling arithmetic. -/

theorem maxOffset_fix_nonneg (N : ℕ) (r : ℝ) (hr0 : 0 ≤ r) : 0 ≤ maxOffset_fix N r := by
  rw [maxOffset_fix]
  exact Int.floor_nonneg.mpr (by positivity)

theorem maxOffset_fix_le (N : ℕ) (r : ℝ) (hr1 : r ≤ 1) : maxOffset_fix N r ≤ (N : ℤ) := by
  rw [maxOffset_fix]
  calc Int.floor ((N : ℝ) * r) ≤ Int.floor ((N : ℝ)) := by
        apply Int.floor_le_floor
        nlinarith [Nat.cast_nonneg (α := ℝ) N]
    _ = (N : ℤ) := Int.floor_natCast N

theorem offset_fix_lb (N : ℕ) (r : ℝ) (j : ℕ) :
    -maxOffset_fix N r ≤ offset_fix N r j := by
  rw [offset_fix, offset_fix_aux]
  have h := Int.tmod_nonneg (2 * maxOffset_fix N r + 1)
    (show (0 : ℤ) ≤ (j : ℤ) * 8273 by positivity)
  omega

theorem offset_fix_ub (N : ℕ) (r : ℝ) (j : ℕ) (hr0 : 0 ≤ r) :
    offset_fix N r j ≤ maxOffset_fix N r := by
  have hm0 := maxOffset_fix_nonneg N r hr0
  rw [offset_fix, offset_fix_aux]
  have h := Int.tmod_lt_of_pos ((j : ℤ) * 8273) (show (0 : ℤ) < 2 * maxOffset_fix N r + 1 by omega)
  omega

/-- Claim C10: with frequencyScrambleRange in [0,1] the deterministic
scrambling of the part_000 variant is well defined and in bounds: the
modulus 2*maxOffset+1 is nonzero, the dividend j+offset+N is nonnegative,
the target bin lies in [0,N), and the interleaved write indices
2*targetBin and 2*targetBin+1 stay inside the complex buffer of 2*N
floats. -/
theorem C10_scrambling_safety (N : ℕ) (r : ℝ) (j : ℕ) (hN : 0 < N) (hj : j < N)
    (hr0 : 0 ≤ r) (hr1 : r ≤ 1) :
    2 * maxOffset_fix N r + 1 ≠ 0 ∧
    0 ≤ (j : ℤ) + offset_fix N r j + (N : ℤ) ∧
    0 ≤ scrambleTarget_fix N r j ∧
    scrambleTarget_fix N r j < (N : ℤ) ∧
    2 * (scrambleTarget_fix N r j).toNat + 1 < 2 * N := by
  have hm0 := maxOffset_fix_nonneg N r hr0
  have hmN := maxOffset_fix_le N r hr1
  have hlb := offset_fix_lb N r j
  have hub := offset_fix_ub N r j hr0
  have hnn : 0 ≤ (j : ℤ) + offset_fix N r j + (N : ℤ) := by omega
  have ht0 : 0 ≤ scrambleTarget_fix N r j := by
    rw [scrambleTarget_fix]
    exact Int.tmod_nonneg _ hnn
  have htN : scrambleTarget_fix N r j < (N : ℤ) := by
    rw [scrambleTarget_fix]
    exact Int.tmod_lt_of_pos _ (by exact_mod_cast hN)
  exact ⟨by omega, hnn, ht0, htN, by omega⟩

/-- Witness for C10 at N = 2048, r = 0.002, j = 0. -/
theorem C10_scrambling_safety_witness :
    ((0 : ℕ) < 2048 ∧ (0 : ℕ) < 2048 ∧ (0 : ℝ) ≤ 0.002 ∧ (0.002 : ℝ) ≤ 1) ∧
    (2 * maxOffset_fix 2048 0.002 + 1 ≠ 0 ∧
     0 ≤ ((0 : ℕ) : ℤ) + offset_fix 2048 0.002 0 + ((2048 : ℕ) : ℤ) ∧
     0 ≤ scrambleTarget_fix 2048 0.002 0 ∧
     scrambleTarget_fix 2048 0.002 0 < ((2048 : ℕ) : ℤ) ∧
     2 * (scrambleTarget_fix 2048 0.002 0).toNat + 1 < 2 * 2048) :=
  ⟨⟨by norm_num, by norm_num, by norm_num, by norm_num⟩,
   C10_scrambling_safety 2048 0.002 0 (by norm_num) (by norm_num) (by norm_num) (by norm_num)⟩

/-! Frame lemmas: one effect iteration changes nothing outside its
destination bin and bin j (the negation index). -/

theorem effectStep_lib_frame_scramble (s : VoiceSettings) (rand : ℕ → ℝ) (N : ℕ)
    (f : ℕ → ℂ) (j k : ℕ) (hs : s.useFrequencyScrambling = true)
    (hk1 : k ≠ scrambleTarget_lib N j) (hk2 : k ≠ j) :
    effectStep_lib s rand N f j k = f k := by
  have hg : gatePass s = true := by simp [gatePass, hs]
  simp only [effectStep_lib, hg, hs, if_true, if_pos]
  split
  · rw [Function.update_noteq hk2, Function.update_noteq hk1]
  · rw [Function.update_noteq hk1]

theorem effectStep_lib_frame_noscramble (s : VoiceSettings) (rand : ℕ → ℝ) (N : ℕ)
    (f : ℕ → ℂ) (j k : ℕ) (hs : s.useFrequencyScrambling = false) (hk2 : k ≠ j) :
    effectStep_lib s rand N f j k = f k := by
  rw [effectStep_lib]
  split
  · simp only [hs, Bool.false_eq_true, if_false]
    split
    · rw [Function.update_noteq hk2, Function.update_noteq hk2]
    · rw [Function.update_noteq hk2]
  · rfl

theorem effectStep_fix_frame_scramble (s : VoiceSettings) (rand : ℕ → ℝ) (N : ℕ)
    (f : ℕ → ℂ) (j k : ℕ) (hs : s.useFrequencyScrambling = true)
    (hk1 : k ≠ (scrambleTarget_fix N s.frequencyScrambleRange j).toNat) (hk2 : k ≠ j) :
    effectStep_fix s rand N f j k = f k := by
  simp only [effectStep_fix, hs, if_true]
  split
  · split
    · rw [Function.update_noteq hk2, Function.update_noteq hk1]
    · rw [Function.update_noteq hk2]
  · split
    · rw [Function.update_noteq hk1]
    · rfl

theorem effectStep_fix_frame_noscramble (s : VoiceSettings) (rand : ℕ → ℝ) (N : ℕ)
    (f : ℕ → ℂ) (j k : ℕ) (hs : s.useFrequencyScrambling = false) (hk2 : k ≠ j) :
    effectStep_fix s rand N f j k = f k := by
  simp only [effectStep_fix, hs, Bool.false_eq_true, if_false]
  split
  · rw [Function.update_noteq hk2, Function.update_noteq hk2]
  · rw [Function.update_noteq hk2]

/-- Claim C3 counterexample: at N = 2048, frequencyScrambleRange = 0.002 and
bin j = 2, the lib variant of anonymizeAudio scrambles bin 2 to destination
(2 + Math.floor(2*0.5)) % 2048 = 3, while the formula asserted by the claim
yields destination 2; the claimed destination formula is therefore false of
the lib effect stage. -/
theorem C3_counterexample :
    (scrambleTarget_lib 2048 2 : ℤ) ≠ specTargetBin 2048 0.002 2 ∧
    scrambleTarget_lib 2048 2 = 3 ∧ specTargetBin 2048 0.002 2 = 2 := by
  have hlib : scrambleTarget_lib 2048 2 = 3 := by
    rw [scrambleTarget_lib]
    rw [show ((2 : ℕ) : ℝ) * 0.5 = 1 by norm_num, Nat.floor_one]
  have hfl : Int.floor (((2048 : ℕ) : ℝ) * 0.002) = 4 := by
    rw [Int.floor_eq_iff]
    norm_num
  have hspec : specTargetBin 2048 0.002 2 = 2 := by
    rw [specTargetBin, hfl]
    decide
  exact ⟨by rw [hlib, hspec]; decide, hlib, hspec⟩

/-- Claim C3, amended: the deterministic destination formula of the claim
describes the part_000 variant only.  With frequencyScrambleRange = r in
[0,1], (i) the part_000 destination equals the claimed closed form
maxOffset = floor(N*r), offset = ((j*8273) mod (2*maxOffset+1)) - maxOffset,
target = (j + offset + N) mod N; (ii) the part_000 effect iteration writes
nowhere but its destination bin and bin j, so the destination is a pure
function of j, N and r alone; (iii) likewise the lib iteration writes
nowhere but scrambleTarget_lib N j = (j + floor(j*0.5)) % N and bin j, a
pure function of j and N alone and independent of frequencyScrambleRange. -/
theorem C3_scramble_destination (N : ℕ) (r : ℝ) (j : ℕ) (hN : 0 < N)
    (hr0 : 0 ≤ r) (hr1 : r ≤ 1) :
    scrambleTarget_fix N r j = specTargetBin N r j ∧
    (∀ (s : VoiceSettings) (rand : ℕ → ℝ) (f : ℕ → ℂ) (k : ℕ),
      s.useFrequencyScrambling = true → s.frequencyScrambleRange = r →
      k ≠ (scrambleTarget_fix N r j).toNat → k ≠ j →
      effectStep_fix s rand N f j k = f k) ∧
    (∀ (s : VoiceSettings) (rand : ℕ → ℝ) (f : ℕ → ℂ) (k : ℕ),
      s.useFrequencyScrambling = true →
      k ≠ scrambleTarget_lib N j → k ≠ j →
      effectStep_lib s rand N f j k = f k) := by
  refine ⟨?_, ?_, ?_⟩
  · have hm0 := maxOffset_fix_nonneg N r hr0
    have hmN := maxOffset_fix_le N r hr1
    have hlb := offset_fix_lb N r j
    have h1 : Int.tmod ((j : ℤ) * 8273) (2 * maxOffset_fix N r + 1)
        = ((j : ℤ) * 8273) % (2 * maxOffset_fix N r + 1) :=
      Int.tmod_eq_emod (by positivity) (by omega)
    have h2 : scrambleTarget_fix N r j
        = ((j : ℤ) + offset_fix N r j + (N : ℤ)) % (N : ℤ) := by
      rw [scrambleTarget_fix]
      exact Int.tmod_eq_emod (by omega) (by positivity)
    rw [h2, specTargetBin, offset_fix, offset_fix_aux, h1, maxOffset_fix]
  · intro s rand f k hs hr hk1 hk2
    rw [← hr] at hk1
    exact effectStep_fix_frame_scramble s rand N f j k hs hk1 hk2
  · intro s rand f k hs hk1 hk2
    exact effectStep_lib_frame_scramble s rand N f j k hs hk1 hk2

/-- Witness for the amended C3 at N = 2048, r = 0.002, j = 5. -/
theorem C3_scramble_destination_witness :
    ((0 : ℕ) < 2048 ∧ (0 : ℝ) ≤ 0.002 ∧ (0.002 : ℝ) ≤ 1) ∧
    scrambleTarget_fix 2048 0.002 5 = specTargetBin 2048 0.002 5 :=
  ⟨⟨by norm_num, by norm_num, by norm_num⟩,
   (C3_scramble_destination 2048 0.002 5 (by norm_num) (by norm_num) (by norm_num)).1⟩

/-- Claim C6 counterexample: the lib time-domain shaper with
useTimeDistortion set and timeDistortionAmount = 1 maps the full-scale
sample 1 to tanh(1), not to the claimed tanh(1*1)/tanh(1) = 1. -/
theorem C6_counterexample :
    timeShaper_lib (VoiceSettings.mk 1 1 0 0 false false true 1 0.002) 1 ≠
      Real.tanh (1 * 1) / Real.tanh 1 := by
  have htpos : 0 < Real.tanh 1 := by
    rw [Real.tanh_eq_sinh_div_cosh]
    exact div_pos (by rw [← Real.sinh_zero]; exact Real.sinh_lt_sinh.mpr one_pos) (Real.cosh_pos 1)
  have hlt : Real.tanh 1 < 1 := by
    rw [Real.tanh_eq_sinh_div_cosh]
    exact (div_lt_one (Real.cosh_pos 1)).mpr (Real.sinh_lt_cosh 1)
  have hrhs : Real.tanh (1 * 1) / Real.tanh 1 = 1 := by
    rw [one_mul]
    exact div_self (ne_of_gt htpos)
  rw [timeShaper_lib, hrhs]
  simp only [if_pos rfl]
  rw [one_mul]
  exact ne_of_lt hlt

theorem tanh_pos_of_pos {a : ℝ} (ha : 0 < a) : 0 < Real.tanh a := by
  rw [Real.tanh_eq_sinh_div_cosh]
  exact div_pos (by rw [← Real.sinh_zero]; exact Real.sinh_lt_sinh.mpr ha) (Real.cosh_pos a)

/-- Claim C6, amended: the normalized shaper
tanh(sample*amount)/tanh(amount) is the part_000 variant; it sends the
full-scale samples 1 and -1 exactly to 1 and -1 for every amount in [1,10],
and with the toggle off both variants pass samples through unchanged.  The
lib variant applies tanh(sample*amount) without the normalizing
denominator. -/
theorem C6_time_shaper (s : VoiceSettings) (x : ℝ)
    (h1 : 1 ≤ s.timeDistortionAmount) (h10 : s.timeDistortionAmount ≤ 10) :
    (s.useTimeDistortion = false → timeShaper_lib s x = x ∧ timeShaper_fix s x = x) ∧
    (s.useTimeDistortion = true →
      timeShaper_fix s x =
        Real.tanh (x * s.timeDistortionAmount) / Real.tanh s.timeDistortionAmount ∧
      timeShaper_lib s x = Real.tanh (x * s.timeDistortionAmount) ∧
      timeShaper_fix s 1 = 1 ∧ timeShaper_fix s (-1) = -1) := by
  have hpos : 0 < Real.tanh s.timeDistortionAmount :=
    tanh_pos_of_pos (lt_of_lt_of_le one_pos h1)
  constructor
  · intro h
    rw [timeShaper_lib, timeShaper_fix]
    simp [h]
  · intro h
    refine ⟨by rw [timeShaper_fix]; simp [h], by rw [timeShaper_lib]; simp [h], ?_, ?_⟩
    · rw [timeShaper_fix]
      simp only [h, if_true]
      rw [one_mul]
      exact div_self (ne_of_gt hpos)
    · rw [timeShaper_fix]
      simp only [h, if_true]
      rw [show (-1 : ℝ) * s.timeDistortionAmount = -(1 * s.timeDistortionAmount) by ring,
        Real.tanh_neg, one_mul, neg_div]
      rw [div_self (ne_of_gt hpos)]

/-- Witness for the amended C6 at amount 2 with the toggle on. -/
theorem C6_time_shaper_witness :
    ((1 : ℝ) ≤ 2 ∧ (2 : ℝ) ≤ 10) ∧
    (timeShaper_fix (VoiceSettings.mk 1 1 0 0 false false true 2 0.002) 1 = 1 ∧
     timeShaper_fix (VoiceSettings.mk 1 1 0 0 false false true 2 0.002) (-1) = -1) :=
  ⟨⟨by norm_num, by norm_num⟩,
   ⟨((C6_time_shaper (VoiceSettings.mk 1 1 0 0 false false true 2 0.002) 0
        (by norm_num) (by norm_num)).2 rfl).2.2.1,
    ((C6_time_shaper (VoiceSettings.mk 1 1 0 0 false false true 2 0.002) 0
        (by norm_num) (by norm_num)).2 rfl).2.2.2⟩⟩

/-! Unfolding and stability lemmas for the effect passes. -/

theorem effectPassUpTo_lib_succ (s : VoiceSettings) (rand : ℕ → ℝ) (N : ℕ)
    (f : ℕ → ℂ) (m : ℕ) :
    effectPassUpTo_lib s rand N f (m + 1)
      = effectStep_lib s rand N (effectPassUpTo_lib s rand N f m) m := by
  rw [effectPassUpTo_lib, effectPassUpTo_lib, List.range_succ, List.foldl_append,
    List.foldl_cons, List.foldl_nil]

theorem effectPassUpTo_fix_succ (s : VoiceSettings) (rand : ℕ → ℝ) (N : ℕ)
    (f : ℕ → ℂ) (m : ℕ) :
    effectPassUpTo_fix s rand N f (m + 1)
      = effectStep_fix s rand N (effectPassUpTo_fix s rand N f m) m := by
  rw [effectPassUpTo_fix, effectPassUpTo_fix, List.range_succ, List.foldl_append,
    List.foldl_cons, List.foldl_nil]

/-- Once the iterations below m1 have run, later iterations of the part_000
pass with scrambling off never touch an index k < m1. -/
theorem effectPassUpTo_fix_stable (s : VoiceSettings) (rand : ℕ → ℝ) (N : ℕ)
    (f : ℕ → ℂ) (k m1 m2 : ℕ) (hs : s.useFrequencyScrambling = false)
    (hk : k < m1) (h12 : m1 ≤ m2) :
    effectPassUpTo_fix s rand N f m2 k = effectPassUpTo_fix s rand N f m1 k := by
  induction m2, h12 using Nat.le_induction with
  | base => rfl
  | succ m2 hm ih =>
    rw [effectPassUpTo_fix_succ,
      effectStep_fix_frame_noscramble s rand N _ m2 k hs (by omega), ih]

/-! Concrete evaluation helpers for the effect loop. -/

theorem magnitudeOf_one : magnitudeOf 1 = 1 := by
  rw [magnitudeOf]
  simp [Complex.one_re, Complex.one_im]

theorem atan2_zero_one : atan2 0 1 = 0 := by
  rw [atan2]
  rw [show (⟨1, 0⟩ : ℂ) = 1 from Complex.ext (by simp) (by simp)]
  exact Complex.arg_one

theorem newPhase_of_zero (s : VoiceSettings) (N j : ℕ) (hf : s.frequencyShiftMultiplier = 0) :
    newPhase s N j 0 = Real.pi / 2 := by
  rw [newPhase, hf]
  ring

theorem newMagnitude_simple (s : VoiceSettings) (rand : ℕ → ℝ) (j : ℕ) (m : ℝ)
    (hh : s.harmonicAmount = 0) (hn : s.noiseAmount = 0) :
    newMagnitude s rand j m = m * 2 := by
  rw [newMagnitude, hh, hn]
  simp only [mul_zero, Real.sin_zero, Real.cos_zero, add_zero]
  ring

theorem binValue_pi_div_two (m : ℝ) : binValue m (Real.pi / 2) = ⟨0, m⟩ := by
  rw [binValue]
  simp [Real.cos_pi_div_two, Real.sin_pi_div_two]

theorem scrambleTarget_lib_2048_0 : scrambleTarget_lib 2048 0 = 0 := by
  rw [scrambleTarget_lib]
  rw [show ((0 : ℕ) : ℝ) * 0.5 = 0 by norm_num, Nat.floor_zero]

theorem scrambleTarget_lib_2048_1 : scrambleTarget_lib 2048 1 = 1 := by
  rw [scrambleTarget_lib]
  rw [show Nat.floor (((1 : ℕ) : ℝ) * 0.5) = 0 from Nat.floor_eq_zero.mpr (by norm_num)]

theorem scrambleTarget_lib_2048_2 : scrambleTarget_lib 2048 2 = 3 := by
  rw [scrambleTarget_lib]
  rw [show ((2 : ℕ) : ℝ) * 0.5 = 1 by norm_num, Nat.floor_one]

/-- Earlier iterations that never write to bin j leave bin j untouched. -/
theorem effectPass_generic_fresh (step : (ℕ → ℂ) → ℕ → (ℕ → ℂ)) (f : ℕ → ℂ) (j : ℕ)
    (h : ∀ (g : ℕ → ℂ) (i : ℕ), i < j → step g i j = g j) :
    ∀ m ≤ j, (List.range m).foldl step f j = f j := by
  intro m hm
  induction m with
  | zero => rw [List.range_zero]; rfl
  | succ m ih =>
    rw [List.range_succ, List.foldl_append, List.foldl_cons, List.foldl_nil]
    rw [h _ m (by omega)]
    exact ih (by omega)

/-- Claim C2 counterexample: in the lib variant with scrambling on
(phaseMultiplier 1, all other effect amounts 0), on the window that is 1 at
bin 2 and 0 elsewhere, iteration 2 writes (0,2) to target bin 3, so
iteration 3 reads (0,2) at bin 3 instead of the original value 0: the
magnitude and phase used at bin 3 are computed from a value already
rewritten in the same pass. -/
theorem C2_counterexample :
    effectPassUpTo_lib (VoiceSettings.mk 1 0 0 0 true false false 1 0.002) (fun _ => 0) 2048
        (fun k => if k = 2 then 1 else 0) 3 3
      ≠ (fun k : ℕ => if k = 2 then (1 : ℂ) else 0) 3 := by
  have hrd : effectPassUpTo_lib (VoiceSettings.mk 1 0 0 0 true false false 1 0.002)
      (fun _ => 0) 2048 (fun k => if k = 2 then 1 else 0) 2 2
      = (fun k : ℕ => if k = 2 then (1 : ℂ) else 0) 2 := by
    apply effectPass_generic_fresh
      (effectStep_lib (VoiceSettings.mk 1 0 0 0 true false false 1 0.002) (fun _ => 0) 2048)
      (fun k => if k = 2 then 1 else 0) 2 ?_ 2 le_rfl
    intro g i hi
    apply effectStep_lib_frame_scramble _ _ _ _ _ _ rfl ?_ (by omega)
    interval_cases i
    · rw [scrambleTarget_lib_2048_0]; omega
    · rw [scrambleTarget_lib_2048_1]; omega
  rw [show (3 : ℕ) = 2 + 1 from rfl, effectPassUpTo_lib_succ]
  rw [effectStep_lib]
  simp only [gatePass, Bool.true_or, Bool.false_or, if_true, Bool.false_and, Bool.and_false,
    Bool.false_eq_true, if_false]
  rw [scrambleTarget_lib_2048_2, Function.update_same, hrd]
  rw [show ((fun k : ℕ => if k = 2 then (1 : ℂ) else 0) 2) = 1 from by simp]
  rw [magnitudeOf_one]
  rw [show atan2 (1 : ℂ).im (1 : ℂ).re = 0 from by
    rw [Complex.one_im, Complex.one_re]; exact atan2_zero_one]
  rw [newPhase_of_zero _ _ _ rfl, newMagnitude_simple _ _ _ _ rfl rfl, one_mul,
    binValue_pi_div_two]
  simp [Complex.ext_iff]

/-- Claim C2, amended: the effect loop reads each bin from the buffer it is
mutating, so the magnitude and phase used at bin j come from the original
forward-FFT value exactly when no earlier iteration wrote to bin j.  That is
guaranteed for every j when scrambling is off (both variants, since
iteration i only writes bin i); with scrambling on it holds for j whenever
no earlier bin scrambles onto j. -/
theorem C2_input_freshness (s : VoiceSettings) (rand : ℕ → ℝ) (N : ℕ) (f : ℕ → ℂ) (j : ℕ) :
    (s.useFrequencyScrambling = true →
      (∀ i, i < j → scrambleTarget_lib N i ≠ j) →
      effectPassUpTo_lib s rand N f j j = f j) ∧
    (s.useFrequencyScrambling = false →
      effectPassUpTo_lib s rand N f j j = f j) ∧
    (s.useFrequencyScrambling = true →
      (∀ i, i < j → (scrambleTarget_fix N s.frequencyScrambleRange i).toNat ≠ j) →
      effectPassUpTo_fix s rand N f j j = f j) ∧
    (s.useFrequencyScrambling = false →
      effectPassUpTo_fix s rand N f j j = f j) := by
  refine ⟨?_, ?_, ?_, ?_⟩
  · intro hs h
    exact effectPass_generic_fresh _ f j
      (fun g i hi => effectStep_lib_frame_scramble s rand N g i j hs (fun e => h i hi e.symm)
        (by omega)) j le_rfl
  · intro hs
    exact effectPass_generic_fresh _ f j
      (fun g i hi => effectStep_lib_frame_noscramble s rand N g i j hs (by omega)) j le_rfl
  · intro hs h
    exact effectPass_generic_fresh _ f j
      (fun g i hi => effectStep_fix_frame_scramble s rand N g i j hs (fun e => h i hi e.symm)
        (by omega)) j le_rfl
  · intro hs
    exact effectPass_generic_fresh _ f j
      (fun g i hi => effectStep_fix_frame_noscramble s rand N g i j hs (by omega)) j le_rfl

/-! Where one effect iteration with phase distortion writes and negates. -/

theorem effectStep_lib_at_target (s : VoiceSettings) (rand : ℕ → ℝ) (N : ℕ)
    (f : ℕ → ℂ) (j : ℕ) (hpd : s.useAdditionalPhaseDistortion = true)
    (heven : j % 2 = 0) (hs : s.useFrequencyScrambling = true)
    (ht : scrambleTarget_lib N j ≠ j) :
    effectStep_lib s rand N f j (scrambleTarget_lib N j)
      = binValue (newMagnitude s rand j (magnitudeOf (f j)))
          (newPhase s N j (atan2 (f j).im (f j).re)) := by
  have hb : (j % 2 == 0) = true := by simp [heven]
  have hg : gatePass s = true := by simp [gatePass, hs]
  simp only [effectStep_lib, hs, hpd, hb, hg, Bool.true_and, eq_self_iff_true, if_true]
  rw [Function.update_noteq ht, Function.update_same]

theorem effectStep_lib_at_j (s : VoiceSettings) (rand : ℕ → ℝ) (N : ℕ)
    (f : ℕ → ℂ) (j : ℕ) (hpd : s.useAdditionalPhaseDistortion = true)
    (heven : j % 2 = 0) (hs : s.useFrequencyScrambling = true)
    (ht : scrambleTarget_lib N j ≠ j) :
    effectStep_lib s rand N f j j = -(f j) := by
  have hb : (j % 2 == 0) = true := by simp [heven]
  have hg : gatePass s = true := by simp [gatePass, hs]
  simp only [effectStep_lib, hs, hpd, hb, hg, Bool.true_and, eq_self_iff_true, if_true]
  rw [if_pos hs, Function.update_same, Function.update_noteq (fun e => ht e.symm)]

theorem effectStep_fix_at_target (s : VoiceSettings) (rand : ℕ → ℝ) (N : ℕ)
    (f : ℕ → ℂ) (j : ℕ) (hpd : s.useAdditionalPhaseDistortion = true)
    (heven : j % 2 = 0) (hs : s.useFrequencyScrambling = true)
    (hpos : 0 ≤ scrambleTarget_fix N s.frequencyScrambleRange j)
    (ht : (scrambleTarget_fix N s.frequencyScrambleRange j).toNat ≠ j) :
    effectStep_fix s rand N f j (scrambleTarget_fix N s.frequencyScrambleRange j).toNat
      = binValue (newMagnitude s rand j (magnitudeOf (f j)))
          (newPhase s N j (atan2 (f j).im (f j).re)) := by
  have hb : (j % 2 == 0) = true := by simp [heven]
  simp only [effectStep_fix, hs, hpd, hb, hpos, Bool.true_and, eq_self_iff_true, if_true]
  rw [Function.update_noteq ht, Function.update_same]

theorem effectStep_fix_at_j (s : VoiceSettings) (rand : ℕ → ℝ) (N : ℕ)
    (f : ℕ → ℂ) (j : ℕ) (hpd : s.useAdditionalPhaseDistortion = true)
    (heven : j % 2 = 0) (hs : s.useFrequencyScrambling = true)
    (hpos : 0 ≤ scrambleTarget_fix N s.frequencyScrambleRange j)
    (ht : (scrambleTarget_fix N s.frequencyScrambleRange j).toNat ≠ j) :
    effectStep_fix s rand N f j j = -(f j) := by
  have hb : (j % 2 == 0) = true := by simp [heven]
  simp only [effectStep_fix, hs, hpd, hb, hpos, Bool.true_and, eq_self_iff_true, if_true]
  rw [Function.update_same, Function.update_noteq (fun e => ht e.symm)]

/-- Claim C4 counterexample: lib variant, scrambling and phase distortion
on, bin j = 2 (even) of the window that is 1 at bin 2: the value (0,2) just
written at destination bin 3 is left there unnegated (the claim predicts its
negation (0,-2) at the destination), while the negation is applied to the
stale value at bin 2 instead. -/
theorem C4_counterexample :
    effectStep_lib (VoiceSettings.mk 1 0 0 0 true true false 1 0.002) (fun _ => 0) 2048
        (fun k => if k = 2 then 1 else 0) 2 3 = ⟨0, 2⟩ ∧
    effectStep_lib (VoiceSettings.mk 1 0 0 0 true true false 1 0.002) (fun _ => 0) 2048
        (fun k => if k = 2 then 1 else 0) 2 2
      = -((fun k : ℕ => if k = 2 then (1 : ℂ) else 0) 2) ∧
    (⟨0, 2⟩ : ℂ) ≠ -(⟨0, 2⟩ : ℂ) := by
  have ht : scrambleTarget_lib 2048 2 ≠ 2 := by rw [scrambleTarget_lib_2048_2]; omega
  refine ⟨?_, ?_, by simp [Complex.ext_iff]; norm_num⟩
  · have h := effectStep_lib_at_target (VoiceSettings.mk 1 0 0 0 true true false 1 0.002)
      (fun _ => 0) 2048 (fun k => if k = 2 then 1 else 0) 2 rfl rfl rfl ht
    rw [scrambleTarget_lib_2048_2] at h
    rw [h]
    rw [show ((fun k : ℕ => if k = 2 then (1 : ℂ) else 0) 2) = 1 from by simp]
    rw [magnitudeOf_one]
    rw [show atan2 (1 : ℂ).im (1 : ℂ).re = 0 from by
      rw [Complex.one_im, Complex.one_re]; exact atan2_zero_one]
    rw [newPhase_of_zero _ _ _ rfl, newMagnitude_simple _ _ _ _ rfl rfl, one_mul,
      binValue_pi_div_two]
  · exact effectStep_lib_at_j (VoiceSettings.mk 1 0 0 0 true true false 1 0.002)
      (fun _ => 0) 2048 (fun k => if k = 2 then 1 else 0) 2 rfl rfl rfl ht

/-- Claim C4, amended: when useAdditionalPhaseDistortion is set and j is
even, the effect stage negates both components held at index j (the source
bin), not at the destination: the value just written at the scrambled
destination bin is left there unnegated, and the (stale) value at bin j is
negated — the two locations coincide only when the destination equals j.
This holds in both the lib and the part_000 variants. -/
theorem C4_negation_location (s : VoiceSettings) (rand : ℕ → ℝ) (N : ℕ) (f : ℕ → ℂ) (j : ℕ)
    (hpd : s.useAdditionalPhaseDistortion = true) (heven : j % 2 = 0)
    (hs : s.useFrequencyScrambling = true) :
    (scrambleTarget_lib N j ≠ j →
      effectStep_lib s rand N f j (scrambleTarget_lib N j)
        = binValue (newMagnitude s rand j (magnitudeOf (f j)))
            (newPhase s N j (atan2 (f j).im (f j).re)) ∧
      effectStep_lib s rand N f j j = -(f j)) ∧
    (0 ≤ scrambleTarget_fix N s.frequencyScrambleRange j →
      (scrambleTarget_fix N s.frequencyScrambleRange j).toNat ≠ j →
      effectStep_fix s rand N f j (scrambleTarget_fix N s.frequencyScrambleRange j).toNat
        = binValue (newMagnitude s rand j (magnitudeOf (f j)))
            (newPhase s N j (atan2 (f j).im (f j).re)) ∧
      effectStep_fix s rand N f j j = -(f j)) := by
  constructor
  · intro ht
    exact ⟨effectStep_lib_at_target s rand N f j hpd heven hs ht,
      effectStep_lib_at_j s rand N f j hpd heven hs ht⟩
  · intro hpos ht
    exact ⟨effectStep_fix_at_target s rand N f j hpd heven hs hpos ht,
      effectStep_fix_at_j s rand N f j hpd heven hs hpos ht⟩

/-- Witness for the amended C4 at N = 2048, j = 2, scrambling and phase
distortion on. -/
theorem C4_negation_location_witness :
    ((VoiceSettings.mk 1 0 0 0 true true false 1 0.002).useAdditionalPhaseDistortion = true ∧
     2 % 2 = 0 ∧
     (VoiceSettings.mk 1 0 0 0 true true false 1 0.002).useFrequencyScrambling = true) ∧
    (scrambleTarget_lib 2048 2 ≠ 2 →
      effectStep_lib (VoiceSettings.mk 1 0 0 0 true true false 1 0.002) (fun _ => 0) 2048
          (fun _ => 0) 2 (scrambleTarget_lib 2048 2)
        = binValue
            (newMagnitude (VoiceSettings.mk 1 0 0 0 true true false 1 0.002) (fun _ => 0) 2
              (magnitudeOf ((fun _ : ℕ => (0 : ℂ)) 2)))
            (newPhase (VoiceSettings.mk 1 0 0 0 true true false 1 0.002) 2048 2
              (atan2 ((fun _ : ℕ => (0 : ℂ)) 2).im ((fun _ : ℕ => (0 : ℂ)) 2).re)) ∧
      effectStep_lib (VoiceSettings.mk 1 0 0 0 true true false 1 0.002) (fun _ => 0) 2048
          (fun _ => 0) 2 2 = -((fun _ : ℕ => (0 : ℂ)) 2)) :=
  ⟨⟨rfl, rfl, rfl⟩,
   (C4_negation_location (VoiceSettings.mk 1 0 0 0 true true false 1 0.002) (fun _ => 0) 2048
     (fun _ => 0) 2 rfl rfl rfl).1⟩

/-- Claim C5 counterexample: in the part_000 variant the magnitude/phase
rewrite is not gated on the toggles.  With all three toggles false
(phaseMultiplier 1, frequencyShiftMultiplier 0, harmonic and noise amounts
0), the effect pass over the window that is 1 at bin 0 replaces the value at
bin 0 by (0, 2): the bin is not passed through unmodified. -/
theorem C5_counterexample :
    effectPass_fix (VoiceSettings.mk 1 0 0 0 false false false 1 0.002) (fun _ => 0) 2048
        (fun k => if k = 0 then 1 else 0) 0 = ⟨0, 2⟩ ∧
    (fun k : ℕ => if k = 0 then (1 : ℂ) else 0) 0 = 1 ∧
    (⟨0, 2⟩ : ℂ) ≠ 1 := by
  refine ⟨?_, by simp, by simp [Complex.ext_iff]⟩
  rw [effectPass_fix, effectPassUpTo_fix_stable _ _ _ _ 0 1 2048 rfl (by omega) (by omega)]
  rw [show (1 : ℕ) = 0 + 1 from rfl, effectPassUpTo_fix_succ]
  rw [show effectPassUpTo_fix (VoiceSettings.mk 1 0 0 0 false false false 1 0.002)
      (fun _ => 0) 2048 (fun k => if k = 0 then 1 else 0) 0
      = (fun k : ℕ => if k = 0 then 1 else 0) from by
    rw [effectPassUpTo_fix, List.range_zero]; rfl]
  rw [effectStep_fix]
  simp only [Bool.false_and, Bool.false_eq_true, if_false, if_true, eq_self_iff_true,
    Function.update_same]
  rw [magnitudeOf_one]
  rw [show atan2 (1 : ℂ).im (1 : ℂ).re = 0 from by
    rw [Complex.one_im, Complex.one_re]; exact atan2_zero_one]
  rw [newPhase_of_zero _ _ _ rfl, newMagnitude_simple _ _ _ _ rfl rfl, one_mul,
    binValue_pi_div_two]

/-- Claim C5, amended: with all three toggles false the lib effect pass is
the identity on every window (each bin's destination is its own index, no
negation, and the stored value is exactly the forward-FFT value); the
part_000 effect iteration still keeps destination j and applies no negation,
but rewrites the value held at j, so only the lib variant satisfies the
stored-value clause. -/
theorem C5_identity_gating (s : VoiceSettings) (rand : ℕ → ℝ) (N : ℕ) (f : ℕ → ℂ)
    (h1 : s.useFrequencyScrambling = false) (h2 : s.useAdditionalPhaseDistortion = false)
    (h3 : s.useTimeDistortion = false) :
    effectPass_lib s rand N f = f ∧
    (∀ j k : ℕ, k ≠ j → effectStep_fix s rand N f j k = f k) := by
  have hg : gatePass s = false := by simp [gatePass, h1, h2, h3]
  have hstep : ∀ (g : ℕ → ℂ) (j : ℕ), effectStep_lib s rand N g j = g := by
    intro g j
    rw [effectStep_lib, if_neg]
    rw [hg]
    simp
  constructor
  · have hfold : ∀ (l : List ℕ) (g : ℕ → ℂ), l.foldl (effectStep_lib s rand N) g = g := by
      intro l
      induction l with
      | nil => intro g; rfl
      | cons a t ih => intro g; rw [List.foldl_cons, hstep g a]; exact ih g
    exact hfold _ f
  · intro j k hk
    exact effectStep_fix_frame_noscramble s rand N f j k h1 hk

/-- Witness for the amended C5: a concrete all-toggles-false configuration
on a window of 4 bins. -/
theorem C5_identity_gating_witness :
    ((VoiceSettings.mk 1 0 0 0 false false false 1 0.002).useFrequencyScrambling = false ∧
     (VoiceSettings.mk 1 0 0 0 false false false 1 0.002).useAdditionalPhaseDistortion = false ∧
     (VoiceSettings.mk 1 0 0 0 false false false 1 0.002).useTimeDistortion = false) ∧
    effectPass_lib (VoiceSettings.mk 1 0 0 0 false false false 1 0.002) (fun _ => 0) 4
      (fun _ => 0) = (fun _ : ℕ => (0 : ℂ)) :=
  ⟨⟨rfl, rfl, rfl⟩,
   (C5_identity_gating (VoiceSettings.mk 1 0 0 0 false false false 1 0.002) (fun _ => 0) 4
     (fun _ => 0) rfl rfl rfl).1⟩

/-! Length and indexing of the WAV byte stream. -/

theorem i16le_length (x : ℝ) : (i16le x).length = 2 := rfl

theorem wavHeader_length (C L R : ℕ) : (wavHeader C L R).length = 44 := rfl

theorem flatMap_i16le_length (n : ℕ) (g : ℕ → ℝ) :
    ((List.range n).flatMap (fun m => i16le (g m))).length = 2 * n := by
  induction n with
  | zero => rfl
  | succ n ih =>
    rw [List.range_succ, List.flatMap_append, List.length_append, ih,
      List.flatMap_cons, List.flatMap_nil, List.append_nil, i16le_length]
    omega

theorem flatMap_i16le_getD (n : ℕ) (g : ℕ → ℝ) (m i : ℕ) (hm : m < n) (hi : i < 2) :
    ((List.range n).flatMap (fun m => i16le (g m))).getD (2 * m + i) 0
      = (i16le (g m)).getD i 0 := by
  induction n with
  | zero => omega
  | succ n ih =>
    rw [List.range_succ, List.flatMap_append, List.flatMap_cons, List.flatMap_nil,
      List.append_nil]
    rcases Nat.lt_or_ge m n with h | h
    · rw [List.getD_append _ _ _ _ (by rw [flatMap_i16le_length]; omega)]
      exact ih h
    · have hmn : m = n := by omega
      subst hmn
      rw [List.getD_append_right _ _ _ _ (by rw [flatMap_i16le_length]; omega)]
      rw [flatMap_i16le_length]
      congr 1
      omega

theorem u32le_decode (v : ℕ) (h : v < 2 ^ 32) :
    v % 256 + 256 * (v / 256 % 256) + 2 ^ 16 * (v / 2 ^ 16 % 256) +
      2 ^ 24 * (v / 2 ^ 24 % 256) = v := by
  have h1 : v / 2 ^ 16 = v / 256 / 256 := by rw [Nat.div_div_eq_div_mul]; norm_num
  have h2 : v / 2 ^ 24 = v / 256 / 256 / 256 := by
    rw [Nat.div_div_eq_div_mul, Nat.div_div_eq_div_mul]; norm_num
  rw [h1, h2]
  omega

/-- Claim C7: WAV header correctness.  For a buffer with C channels and L
samples per channel (payload below 2^32 bytes so the uint32 header fields do
not wrap), the emitted blob is 44 + 2*C*L bytes long, bytes [4:8) decode as
the little-endian uint32 36 + 2*C*L, and bytes [40:44) decode as the
little-endian uint32 2*C*L. -/
theorem C7_wav_header (b : AudioBufferModel) (C L : ℕ)
    (hC : b.channels.length = C) (hL : b.length = L)
    (hsize : 36 + 2 * C * L < 2 ^ 32) :
    (audioBufferToWav b).length = 44 + 2 * C * L ∧
    (audioBufferToWav b).getD 4 0 + 256 * (audioBufferToWav b).getD 5 0 +
      2 ^ 16 * (audioBufferToWav b).getD 6 0 + 2 ^ 24 * (audioBufferToWav b).getD 7 0
      = 36 + 2 * C * L ∧
    (audioBufferToWav b).getD 40 0 + 256 * (audioBufferToWav b).getD 41 0 +
      2 ^ 16 * (audioBufferToWav b).getD 42 0 + 2 ^ 24 * (audioBufferToWav b).getD 43 0
      = 2 * C * L := by
  have hlen : (audioBufferToWav b).length = 44 + 2 * C * L := by
    rw [audioBufferToWav, List.length_append, wavHeader_length, flatMap_i16le_length,
      hC, hL]
    ring
  have hhd : ∀ p : ℕ, p < 44 →
      (audioBufferToWav b).getD p 0 = (wavHeader C L b.sampleRate).getD p 0 := by
    intro p hp
    rw [audioBufferToWav, List.getD_append _ _ _ _ (by rw [wavHeader_length]; omega),
      hC, hL]
  have hv : 36 + L * C * 2 = 36 + 2 * C * L := by ring
  refine ⟨hlen, ?_, ?_⟩
  · rw [hhd 4 (by omega), hhd 5 (by omega), hhd 6 (by omega), hhd 7 (by omega)]
    simp only [wavHeader, u32le, u16le, List.cons_append, List.nil_append,
      List.getD_cons_zero, List.getD_cons_succ]
    rw [u32le_decode (36 + L * C * 2) (by rw [hv]; exact hsize)]
    exact hv
  · rw [hhd 40 (by omega), hhd 41 (by omega), hhd 42 (by omega), hhd 43 (by omega)]
    simp only [wavHeader, u32le, u16le, List.cons_append, List.nil_append,
      List.getD_cons_zero, List.getD_cons_succ]
    rw [u32le_decode (L * C * 2) (by omega)]
    ring

/-- Witness for C7 at the specification scenario: mono, 4096 zero samples,
16000 Hz; the blob is 44 + 2*1*4096 = 8236 bytes with header field 8228. -/
theorem C7_wav_header_witness :
    ((AudioBufferModel.mk [List.replicate 4096 0] 4096 16000).channels.length = 1 ∧
     (AudioBufferModel.mk [List.replicate 4096 0] 4096 16000).length = 4096 ∧
     36 + 2 * 1 * 4096 < 2 ^ 32) ∧
    ((audioBufferToWav (AudioBufferModel.mk [List.replicate 4096 0] 4096 16000)).length
       = 44 + 2 * 1 * 4096 ∧
     (audioBufferToWav (AudioBufferModel.mk [List.replicate 4096 0] 4096 16000)).getD 4 0 +
       256 * (audioBufferToWav (AudioBufferModel.mk [List.replicate 4096 0] 4096 16000)).getD 5 0 +
       2 ^ 16 * (audioBufferToWav (AudioBufferModel.mk [List.replicate 4096 0] 4096 16000)).getD 6 0 +
       2 ^ 24 * (audioBufferToWav (AudioBufferModel.mk [List.replicate 4096 0] 4096 16000)).getD 7 0
       = 36 + 2 * 1 * 4096 ∧
     (audioBufferToWav (AudioBufferModel.mk [List.replicate 4096 0] 4096 16000)).getD 40 0 +
       256 * (audioBufferToWav (AudioBufferModel.mk [List.replicate 4096 0] 4096 16000)).getD 41 0 +
       2 ^ 16 * (audioBufferToWav (AudioBufferModel.mk [List.replicate 4096 0] 4096 16000)).getD 42 0 +
       2 ^ 24 * (audioBufferToWav (AudioBufferModel.mk [List.replicate 4096 0] 4096 16000)).getD 43 0
       = 2 * 1 * 4096) :=
  ⟨⟨rfl, rfl, by norm_num⟩,
   C7_wav_header (AudioBufferModel.mk [List.replicate 4096 0] 4096 16000) 1 4096 rfl rfl
     (by norm_num)⟩

/-- Claim C8: WAV payload layout and quantization.  The payload is written
channel-major: the two bytes of sample k of channel i sit at offsets
44 + 2*(i*L + k) and 44 + 2*(i*L + k) + 1 of the blob, and they are the
little-endian encoding of the sample clamped to [-1,1], scaled by 0x8000
when negative and by 0x7FFF otherwise, truncated toward zero and stored as
the two's-complement 16-bit pattern. -/
theorem C8_wav_payload (b : AudioBufferModel) (C L i k : ℕ)
    (hC : b.channels.length = C) (hL : b.length = L)
    (hwf : ∀ ch ∈ b.channels, ch.length = L)
    (hi : i < C) (hk : k < L) :
    [(audioBufferToWav b).getD (44 + 2 * (i * L + k)) 0,
     (audioBufferToWav b).getD (44 + 2 * (i * L + k) + 1) 0]
      = u16le (toUint16 (jsTrunc (quantVal ((b.channels.getD i []).getD k 0)))) := by
  have hm : i * L + k < b.length * b.channels.length := by
    rw [hC, hL]
    calc i * L + k < i * L + L := by omega
      _ = (i + 1) * L := by ring
      _ ≤ C * L := Nat.mul_le_mul_right L (by omega)
      _ = L * C := Nat.mul_comm C L
  have hpay : ∀ q : ℕ, (audioBufferToWav b).getD (44 + q) 0
      = ((List.range (b.length * b.channels.length)).flatMap
          (fun m => i16le (dataAt b m))).getD q 0 := by
    intro q
    rw [audioBufferToWav,
      List.getD_append_right _ _ _ _ (by rw [wavHeader_length]; omega)]
    rw [wavHeader_length]
    congr 1
    omega
  have hdata : dataAt b (i * L + k) = (b.channels.getD i []).getD k 0 := by
    rw [dataAt, hL]
    have hdiv : (i * L + k) / L = i := by
      rw [Nat.mul_comm i L, Nat.mul_add_div (by omega), Nat.div_eq_of_lt hk]
      omega
    have hmod : (i * L + k) % L = k := by
      rw [Nat.mul_comm i L, Nat.mul_add_mod, Nat.mod_eq_of_lt hk]
    rw [hdiv, hmod]
  have e0 : ((List.range (b.length * b.channels.length)).flatMap
      (fun m => i16le (dataAt b m))).getD (2 * (i * L + k) + 0) 0
      = (i16le (dataAt b (i * L + k))).getD 0 0 :=
    flatMap_i16le_getD (b.length * b.channels.length) (fun m => dataAt b m)
      (i * L + k) 0 hm (by omega)
  have e1 : ((List.range (b.length * b.channels.length)).flatMap
      (fun m => i16le (dataAt b m))).getD (2 * (i * L + k) + 1) 0
      = (i16le (dataAt b (i * L + k))).getD 1 0 :=
    flatMap_i16le_getD (b.length * b.channels.length) (fun m => dataAt b m)
      (i * L + k) 1 hm (by omega)
  rw [Nat.add_zero] at e0
  rw [show 44 + 2 * (i * L + k) + 1 = 44 + (2 * (i * L + k) + 1) from by omega]
  rw [hpay (2 * (i * L + k)), hpay (2 * (i * L + k) + 1)]
  rw [e0, e1, hdata, i16le, u16le]
  rfl

/-- Witness for C8: channel 0, sample 1 of a one-channel two-sample buffer. -/
theorem C8_wav_payload_witness :
    ((AudioBufferModel.mk [[0, 0.5]] 2 8000).channels.length = 1 ∧
     (AudioBufferModel.mk [[0, 0.5]] 2 8000).length = 2 ∧
     (0 : ℕ) < 1 ∧ (1 : ℕ) < 2) ∧
    [(audioBufferToWav (AudioBufferModel.mk [[0, 0.5]] 2 8000)).getD (44 + 2 * (0 * 2 + 1)) 0,
     (audioBufferToWav (AudioBufferModel.mk [[0, 0.5]] 2 8000)).getD (44 + 2 * (0 * 2 + 1) + 1) 0]
      = u16le (toUint16 (jsTrunc (quantVal
          (((AudioBufferModel.mk [[0, 0.5]] 2 8000).channels.getD 0 []).getD 1 0)))) :=
  ⟨⟨rfl, rfl, by norm_num, by norm_num⟩,
   C8_wav_payload (AudioBufferModel.mk [[0, 0.5]] 2 8000) 1 2 0 1 rfl rfl
     (by intro ch hch; rw [List.mem_singleton] at hch; rw [hch]; rfl)
     (by norm_num) (by norm_num)⟩

/-! Length and entry tracking for the chunked per-channel pipeline. -/

theorem getD_set_real (l : List ℝ) (n m : ℕ) (a : ℝ) :
    (l.set n a).getD m 0 = if m = n ∧ n < l.length then a else l.getD m 0 := by
  rw [List.getD_eq_getElem?_getD, List.getD_eq_getElem?_getD, List.getElem?_set]
  rcases eq_or_ne n m with h | h
  · subst h
    rcases Nat.lt_or_ge n l.length with hl | hl
    · simp [hl]
    · rw [if_pos rfl, if_neg (by omega), if_neg (by omega),
        List.getElem?_eq_none (by omega)]
  · rw [if_neg (fun e => h e), if_neg (by tauto)]

theorem getD_replicate_zero (L m : ℕ) : (List.replicate L (0 : ℝ)).getD m 0 = 0 := by
  rw [List.getD_eq_getElem?_getD, List.getElem?_replicate]
  split <;> rfl

theorem copyChunk_succ (s : VoiceSettings) (w : ℕ → ℂ) (i cur : ℕ) (out : List ℝ) :
    copyChunk s w i (cur + 1) out
      = (copyChunk s w i cur out).set (i + cur) (timeShaper_lib s (w cur).re) := by
  rw [copyChunk, copyChunk, List.range_succ, List.foldl_append, List.foldl_cons,
    List.foldl_nil]

theorem copyChunk_length (s : VoiceSettings) (w : ℕ → ℂ) (i cur : ℕ) (out : List ℝ) :
    (copyChunk s w i cur out).length = out.length := by
  induction cur with
  | zero => rfl
  | succ cur ih => rw [copyChunk_succ, List.length_set, ih]

theorem copyChunk_getD (s : VoiceSettings) (w : ℕ → ℂ) (i cur : ℕ) (out : List ℝ)
    (m : ℕ) :
    (copyChunk s w i cur out).getD m 0
      = if i ≤ m ∧ m < i + cur ∧ m < out.length then timeShaper_lib s (w (m - i)).re
        else out.getD m 0 := by
  induction cur with
  | zero =>
    rw [if_neg (by omega)]
    rfl
  | succ cur ih =>
    rw [copyChunk_succ, getD_set_real, copyChunk_length, ih]
    rcases Nat.lt_or_ge m out.length with hm | hm
    · rcases eq_or_ne m (i + cur) with he | hne
      · subst he
        rw [if_pos ⟨rfl, hm⟩, if_pos (by omega), show i + cur - i = cur from by omega]
      · rw [if_neg (by omega)]
        rcases Nat.lt_or_ge m (i + cur) with h2 | h2
        · by_cases h3 : i ≤ m
          · rw [if_pos ⟨h3, h2, hm⟩, if_pos (by omega)]
          · rw [if_neg (by omega), if_neg (by omega)]
        · rw [if_neg (by omega), if_neg (by omega)]
    · rw [if_neg (by omega), if_neg (by omega), if_neg (by omega)]

/-- Invariant of the chunk loop: after t chunks the output still has the
input's length, indices below t*2048 hold their final shaped sample and the
rest still hold the initial zero fill. -/
theorem chunkFold_lib_inv (s : VoiceSettings) (rand : ℕ → ℕ → ℝ) (input : List ℝ)
    (t : ℕ) :
    ((List.range t).foldl (chunkStep_lib s rand input)
        (List.replicate input.length 0)).length = input.length ∧
    ∀ m, m < input.length →
      ((List.range t).foldl (chunkStep_lib s rand input)
          (List.replicate input.length 0)).getD m 0
        = if m < t * 2048 then
            timeShaper_lib s
              ((processedChunk_lib s (rand (m / 2048)) input ((m / 2048) * 2048)
                (min ((m / 2048) * 2048 + 2048) input.length - (m / 2048) * 2048))
                (m % 2048)).re
          else 0 := by
  induction t with
  | zero =>
    refine ⟨by rw [List.range_zero, List.foldl_nil, List.length_replicate], ?_⟩
    intro m hm
    rw [List.range_zero, List.foldl_nil, getD_replicate_zero, if_neg (by omega)]
  | succ t ih =>
    rw [List.range_succ, List.foldl_append, List.foldl_cons, List.foldl_nil]
    refine ⟨by rw [chunkStep_lib, copyChunk_length, ih.1], ?_⟩
    intro m hm
    rw [chunkStep_lib, copyChunk_getD, ih.1]
    rcases Nat.lt_or_ge m (t * 2048) with h1 | h1
    · rw [if_neg (by omega), ih.2 m hm, if_pos h1, if_pos (by omega)]
    · rcases Nat.lt_or_ge m (min (t * 2048 + 2048) input.length) with h2 | h2
      · have hq : m / 2048 = t := by omega
        have hcond : t * 2048 ≤ m ∧ m < t * 2048 +
            (min (t * 2048 + 2048) input.length - t * 2048) ∧ m < input.length := by
          omega
        rw [if_pos hcond, if_pos (by omega), hq,
          show m - t * 2048 = m % 2048 from by omega]
      · have hm2 : t * 2048 + 2048 ≤ m := by omega
        rw [if_neg (by omega), ih.2 m hm, if_neg (by omega), if_neg (by omega)]

/-- Claim C9: padding and length preservation of the chunked pipeline.  For
any channel (in particular one whose length is not a multiple of 2048) the
output has exactly the input's length, and every output sample m < length
holds the shaped real part of slot m mod 2048 of its own processed window —
the window starting at 2048*(m/2048) of size min(start+2048, length) - start
— so the zero-padded final window is copied back only on its first
length - start samples, with no truncation and no overrun. -/
theorem C9_padding_length (s : VoiceSettings) (rand : ℕ → ℕ → ℝ) (input : List ℝ)
    (hnd : ¬ (2048 ∣ input.length)) :
    (anonymizeChannel_lib s rand input).length = input.length ∧
    ∀ m, m < input.length →
      (anonymizeChannel_lib s rand input).getD m 0
        = timeShaper_lib s
            ((processedChunk_lib s (rand (m / 2048)) input ((m / 2048) * 2048)
              (min ((m / 2048) * 2048 + 2048) input.length - (m / 2048) * 2048))
              (m % 2048)).re := by
  have h := chunkFold_lib_inv s rand input ((input.length + 2047) / 2048)
  refine ⟨h.1, ?_⟩
  intro m hm
  rw [anonymizeChannel_lib, h.2 m hm, if_pos (by omega)]

/-- Witness for C9 on the one-sample channel [0] (length 1, not a multiple
of 2048). -/
theorem C9_padding_length_witness :
    (¬ (2048 ∣ [(0 : ℝ)].length)) ∧
    ((anonymizeChannel_lib (VoiceSettings.mk 1 0 0 0 false false false 1 0.002)
        (fun _ _ => 0) [0]).length = [(0 : ℝ)].length ∧
     ∀ m, m < [(0 : ℝ)].length →
       (anonymizeChannel_lib (VoiceSettings.mk 1 0 0 0 false false false 1 0.002)
           (fun _ _ => 0) [0]).getD m 0
         = timeShaper_lib (VoiceSettings.mk 1 0 0 0 false false false 1 0.002)
             ((processedChunk_lib (VoiceSettings.mk 1 0 0 0 false false false 1 0.002)
               ((fun _ _ => (0 : ℝ)) (m / 2048)) [0] ((m / 2048) * 2048)
               (min ((m / 2048) * 2048 + 2048) [(0 : ℝ)].length - (m / 2048) * 2048))
               (m % 2048)).re) :=
  ⟨by decide,
   C9_padding_length (VoiceSettings.mk 1 0 0 0 false false false 1 0.002)
     (fun _ _ => 0) [0] (by decide)⟩

/-! Generic lemmas about folds of steps with disjoint read/write footprints,
used to evaluate the in-place FFT loops. -/

theorem foldl_frame_W (g : (ℕ → ℂ) → ℕ → (ℕ → ℂ)) (W : ℕ → Set ℕ)
    (H1 : ∀ a i y, y ∉ W i → g a i y = a y) :
    ∀ (l : List ℕ) (a : ℕ → ℂ) (y : ℕ), (∀ i ∈ l, y ∉ W i) → l.foldl g a y = a y := by
  intro l
  induction l with
  | nil => intro a y _; rfl
  | cons b t ih =>
    intro a y h
    rw [List.foldl_cons, ih (g a b) y (fun i hi => h i (List.mem_cons_of_mem b hi))]
    exact H1 a b y (h b (List.mem_cons_self b t))

theorem foldl_congr_on (g : (ℕ → ℂ) → ℕ → (ℕ → ℂ)) (W : ℕ → Set ℕ) (S : Set ℕ)
    (H1 : ∀ a i y, y ∉ W i → g a i y = a y)
    (H2 : ∀ a aa i, (∀ x ∈ W i, a x = aa x) → ∀ y ∈ W i, g a i y = g aa i y) :
    ∀ (l : List ℕ), (∀ i ∈ l, W i ⊆ S) →
      ∀ a aa, (∀ x ∈ S, a x = aa x) → ∀ y ∈ S, l.foldl g a y = l.foldl g aa y := by
  intro l
  induction l with
  | nil => intro _ a aa h y hy; exact h y hy
  | cons b t ih =>
    intro hW a aa h y hy
    rw [List.foldl_cons, List.foldl_cons]
    refine ih (fun i hi => hW i (List.mem_cons_of_mem b hi)) (g a b) (g aa b) ?_ y hy
    intro x hx
    by_cases hxb : x ∈ W b
    · exact H2 a aa b (fun z hz => h z (hW b (List.mem_cons_self b t) hz)) x hxb
    · rw [H1 a b x hxb, H1 aa b x hxb]
      exact h x hx

theorem foldl_disjoint_eval (g : (ℕ → ℂ) → ℕ → (ℕ → ℂ)) (W : ℕ → Set ℕ)
    (H1 : ∀ a i y, y ∉ W i → g a i y = a y)
    (H2 : ∀ a aa i, (∀ x ∈ W i, a x = aa x) → ∀ y ∈ W i, g a i y = g aa i y) :
    ∀ (l : List ℕ), l.Pairwise (fun i j => ∀ x, x ∈ W i → x ∉ W j) →
      ∀ (a : ℕ → ℂ) (i : ℕ), i ∈ l → ∀ y ∈ W i, l.foldl g a y = g a i y := by
  intro l
  induction l with
  | nil => intro _ a i hi; cases hi
  | cons b t ih =>
    intro hp a i hi y hy
    rw [List.pairwise_cons] at hp
    rw [List.foldl_cons]
    rcases List.mem_cons.mp hi with he | hit
    · subst he
      exact foldl_frame_W g W H1 t (g a i) y (fun j hj hyj => (hp.1 j hj y hy) hyj)
    · have hyb : y ∉ W b := fun hyb => (hp.1 i hit y hyb) hy
      rw [ih hp.2 (g a b) i hit y hy]
      exact H2 (g a b) a i
        (fun x hx => H1 a b x (fun hxb => (hp.1 i hit x hxb) hx)) y hy

/-! Arithmetic of the bit-reversal function. -/

theorem reverseBitsAux_eq (b : ℕ) :
    ∀ x acc : ℕ, reverseBitsAux x b acc = acc * 2 ^ b + reverseBits x b := by
  induction b with
  | zero =>
    intro x acc
    show acc = acc * 1 + reverseBits x 0
    rw [Nat.mul_one]
    rfl
  | succ b ih =>
    intro x acc
    show reverseBitsAux (x / 2) b (2 * acc + x % 2)
      = acc * 2 ^ (b + 1) + reverseBits x (b + 1)
    rw [ih (x / 2) (2 * acc + x % 2)]
    rw [show reverseBits x (b + 1) = reverseBitsAux (x / 2) b (2 * 0 + x % 2) from rfl]
    rw [ih (x / 2) (2 * 0 + x % 2)]
    ring

theorem reverseBits_succ (x b : ℕ) :
    reverseBits x (b + 1) = x % 2 * 2 ^ b + reverseBits (x / 2) b := by
  rw [show reverseBits x (b + 1) = reverseBitsAux (x / 2) b (2 * 0 + x % 2) from rfl,
    reverseBitsAux_eq]
  ring_nf

theorem reverseBits_lt (b : ℕ) : ∀ x, reverseBits x b < 2 ^ b := by
  induction b with
  | zero =>
    intro x
    show reverseBits x 0 < 1
    rw [show reverseBits x 0 = 0 from rfl]
    norm_num
  | succ b ih =>
    intro x
    rw [reverseBits_succ]
    calc x % 2 * 2 ^ b + reverseBits (x / 2) b
        < x % 2 * 2 ^ b + 2 ^ b := Nat.add_lt_add_left (ih (x / 2)) _
      _ ≤ 1 * 2 ^ b + 2 ^ b := by
          exact Nat.add_le_add_right (Nat.mul_le_mul_right _ (by omega)) _
      _ = 2 ^ (b + 1) := by ring

theorem reverseBits_high (b : ℕ) :
    ∀ h x : ℕ, h ≤ 1 → x < 2 ^ b →
      reverseBits (h * 2 ^ b + x) (b + 1) = 2 * reverseBits x b + h := by
  induction b with
  | zero =>
    intro h x hh hx
    have hx0 : x = 0 := by omega
    subst hx0
    rw [reverseBits_succ, show reverseBits ((h * 2 ^ 0 + 0) / 2) 0 = 0 from rfl,
      show reverseBits 0 0 = 0 from rfl]
    omega
  | succ b ih =>
    intro h x hh hx
    have hx2 : x / 2 < 2 ^ b := by
      have h2 : x < 2 ^ b * 2 := by rw [← pow_succ]; exact hx
      omega
    have e1 : (h * 2 ^ (b + 1) + x) % 2 = x % 2 := by
      rw [pow_succ, show h * (2 ^ b * 2) + x = 2 * (h * 2 ^ b) + x from by ring,
        Nat.mul_add_mod]
    have e2 : (h * 2 ^ (b + 1) + x) / 2 = h * 2 ^ b + x / 2 := by
      rw [pow_succ, show h * (2 ^ b * 2) + x = 2 * (h * 2 ^ b) + x from by ring,
        Nat.mul_add_div (by norm_num)]
    rw [reverseBits_succ, e1, e2, ih h (x / 2) hh hx2, reverseBits_succ]
    ring

theorem reverseBits_reverseBits (b : ℕ) :
    ∀ x, x < 2 ^ b → reverseBits (reverseBits x b) b = x := by
  induction b with
  | zero =>
    intro x hx
    have : x = 0 := by omega
    subst this
    rfl
  | succ b ih =>
    intro x hx
    have hx2 : x / 2 < 2 ^ b := by
      have h2 : x < 2 ^ b * 2 := by rw [← pow_succ]; exact hx
      omega
    rw [reverseBits_succ x b,
      reverseBits_high b (x % 2) (reverseBits (x / 2) b) (by omega) (reverseBits_lt b (x / 2)),
      ih (x / 2) hx2]
    omega

/-- The conditional-swap loop realizes the bit-reversal permutation: after
the pass, position y holds the input value at the bit-reversed index. -/
theorem bitRevPass_eq (bits : ℕ) (a : ℕ → ℂ) (y : ℕ) (hy : y < 2 ^ bits) :
    bitRevPass bits a y = a (reverseBits y bits) := by
  set W : ℕ → Set ℕ := fun i =>
    if i < reverseBits i bits then {i, reverseBits i bits} else ∅ with hWdef
  have hmem : ∀ i z, z ∈ W i ↔ i < reverseBits i bits ∧ (z = i ∨ z = reverseBits i bits) := by
    intro i z
    simp only [hWdef]
    by_cases h : i < reverseBits i bits
    · simp only [if_pos h, Set.mem_insert_iff, Set.mem_singleton_iff]
      tauto
    · simp only [if_neg h, Set.mem_empty_iff_false]
      tauto
  have H1 : ∀ (f : ℕ → ℂ) (i z : ℕ), z ∉ W i → swapStep bits f i z = f z := by
    intro f i z hz
    rw [swapStep]
    split
    · rename_i h
      have h1 : z ≠ i := fun e => hz ((hmem i z).mpr ⟨h, Or.inl e⟩)
      have h2 : z ≠ reverseBits i bits := fun e => hz ((hmem i z).mpr ⟨h, Or.inr e⟩)
      rw [Function.update_noteq h2, Function.update_noteq h1]
    · rfl
  have H2 : ∀ (f ff : ℕ → ℂ) (i : ℕ), (∀ x ∈ W i, f x = ff x) →
      ∀ z ∈ W i, swapStep bits f i z = swapStep bits ff i z := by
    intro f ff i hag z hz
    rcases (hmem i z).mp hz with ⟨h, hcase⟩
    have hi : i ∈ W i := (hmem i i).mpr ⟨h, Or.inl rfl⟩
    have hr : reverseBits i bits ∈ W i := (hmem i _).mpr ⟨h, Or.inr rfl⟩
    have hne : i ≠ reverseBits i bits := Nat.ne_of_lt h
    rw [swapStep, swapStep, if_pos h, if_pos h]
    rcases hcase with he | he
    · subst he
      rw [Function.update_noteq hne, Function.update_noteq hne,
        Function.update_same, Function.update_same]
      exact hag _ hr
    · subst he
      rw [Function.update_same, Function.update_same]
      exact hag _ hi
  have hpair : (List.range (2 ^ bits)).Pairwise (fun i j => ∀ x, x ∈ W i → x ∉ W j) := by
    refine (List.pairwise_lt_range (2 ^ bits)).imp_of_mem ?_
    intro i j hi hj hij x hxi hxj
    rw [List.mem_range] at hi hj
    rcases (hmem i x).mp hxi with ⟨h1, c1⟩
    rcases (hmem j x).mp hxj with ⟨h2, c2⟩
    have hrj : reverseBits (reverseBits j bits) bits = j := reverseBits_reverseBits bits j hj
    have hri : reverseBits (reverseBits i bits) bits = i := reverseBits_reverseBits bits i hi
    rcases c1 with e1 | e1 <;> rcases c2 with e2 | e2
    · omega
    · subst e1
      rw [← e2] at hrj
      omega
    · subst e2
      rw [← e1] at hri
      omega
    · have e3 : reverseBits i bits = reverseBits j bits := by omega
      rw [e3, hrj] at hri
      omega
  rw [bitRevPass]
  rcases lt_trichotomy y (reverseBits y bits) with h | h | h
  · rw [foldl_disjoint_eval (swapStep bits) W H1 H2 _ hpair a y (List.mem_range.mpr hy)
      y ((hmem y y).mpr ⟨h, Or.inl rfl⟩)]
    rw [swapStep, if_pos h, Function.update_noteq (Nat.ne_of_lt h), Function.update_same]
  · have hframe : (List.range (2 ^ bits)).foldl (swapStep bits) a y = a y := by
      apply foldl_frame_W (swapStep bits) W H1
      intro i hi hyW
      rw [List.mem_range] at hi
      rcases (hmem i y).mp hyW with ⟨h1, c1⟩
      have hri := reverseBits_reverseBits bits i hi
      rcases c1 with e | e
      · subst e
        omega
      · subst e
        rw [hri] at h
        omega
    rw [hframe, ← h]
  · have hry : reverseBits y bits < 2 ^ bits := reverseBits_lt bits y
    have hrr : reverseBits (reverseBits y bits) bits = y := reverseBits_reverseBits bits y hy
    have hmem2 : y ∈ W (reverseBits y bits) :=
      (hmem _ y).mpr ⟨by omega, Or.inr (by omega)⟩
    rw [foldl_disjoint_eval (swapStep bits) W H1 H2 _ hpair a (reverseBits y bits)
      (List.mem_range.mpr hry) y hmem2]
    rw [swapStep, if_pos (show reverseBits y bits < reverseBits (reverseBits y bits) bits by omega)]
    rw [hrr, Function.update_same]

/-! Pointwise evaluation of one butterfly stage. -/

theorem bflyStep_frame (size i0 : ℕ) (f : ℕ → ℂ) (j z : ℕ)
    (h1 : z ≠ i0 + j) (h2 : z ≠ i0 + j + size / 2) : bflyStep size i0 f j z = f z := by
  rw [bflyStep, Function.update_noteq h2, Function.update_noteq h1]

theorem bflyStep_congr (size i0 : ℕ) (f ff : ℕ → ℂ) (j : ℕ)
    (hag : ∀ x ∈ ({i0 + j, i0 + j + size / 2} : Set ℕ), f x = ff x) :
    ∀ z ∈ ({i0 + j, i0 + j + size / 2} : Set ℕ),
      bflyStep size i0 f j z = bflyStep size i0 ff j z := by
  intro z hz
  have he : f (i0 + j) = ff (i0 + j) := hag _ (by simp)
  have ho : f (i0 + j + size / 2) = ff (i0 + j + size / 2) := hag _ (by simp)
  rw [bflyStep, bflyStep, he, ho]
  rcases Set.mem_insert_iff.mp hz with he2 | ho2
  · subst he2
    by_cases heo : i0 + j = i0 + j + size / 2
    · rw [← heo, Function.update_same, Function.update_same]
    · rw [Function.update_noteq heo, Function.update_noteq heo,
        Function.update_same, Function.update_same]
  · rw [Set.mem_singleton_iff] at ho2
    subst ho2
    rw [Function.update_same, Function.update_same]

theorem blockStep_frame (size : ℕ) (a : ℕ → ℂ) (b y : ℕ)
    (hy : y < b * size ∨ b * size + size ≤ y) : blockStep size a b y = a y := by
  rw [blockStep]
  apply foldl_frame_W (bflyStep size (b * size))
    (fun j => {b * size + j, b * size + j + size / 2}) ?_ _ a y ?_
  · intro f j z hz
    exact bflyStep_frame size (b * size) f j z
      (fun e => hz (Set.mem_insert_iff.mpr (Or.inl e)))
      (fun e => hz (Set.mem_insert_iff.mpr (Or.inr (Set.mem_singleton_iff.mpr e))))
  · intro j hj hyW
    rw [List.mem_range] at hj
    rcases Set.mem_insert_iff.mp hyW with e | e
    · omega
    · rw [Set.mem_singleton_iff] at e
      omega

theorem blockStep_congr (size : ℕ) (a aa : ℕ → ℂ) (b : ℕ)
    (hag : ∀ x, b * size ≤ x → x < b * size + size → a x = aa x) :
    ∀ y, b * size ≤ y → y < b * size + size → blockStep size a b y = blockStep size aa b y := by
  intro y hy1 hy2
  rw [blockStep, blockStep]
  refine foldl_congr_on (bflyStep size (b * size))
    (fun j => {b * size + j, b * size + j + size / 2})
    {x | b * size ≤ x ∧ x < b * size + size}
    ?_ ?_ (List.range (size / 2)) ?_ a aa (fun x hx => hag x hx.1 hx.2) y ⟨hy1, hy2⟩
  · intro f j z hz
    exact bflyStep_frame size (b * size) f j z
      (fun e => hz (Set.mem_insert_iff.mpr (Or.inl e)))
      (fun e => hz (Set.mem_insert_iff.mpr (Or.inr (Set.mem_singleton_iff.mpr e))))
  · intro f ff j hag2 z hz
    exact bflyStep_congr size (b * size) f ff j hag2 z hz
  · intro j hj x hx
    rw [List.mem_range] at hj
    rcases Set.mem_insert_iff.mp hx with e | e
    · constructor <;> omega
    · rw [Set.mem_singleton_iff] at e
      constructor <;> omega

theorem blockStep_eval (size half : ℕ) (hs : size = 2 * half) (hh : 0 < half)
    (a : ℕ → ℂ) (b j : ℕ) (hj : j < half) :
    blockStep size a b (b * size + j)
        = a (b * size + j) + tw size j * a (b * size + j + half) ∧
    blockStep size a b (b * size + j + half)
        = a (b * size + j) - tw size j * a (b * size + j + half) := by
  have hhalf : size / 2 = half := by omega
  have hpair : (List.range (size / 2)).Pairwise
      (fun j1 j2 => ∀ x, x ∈ ({b * size + j1, b * size + j1 + size / 2} : Set ℕ) →
        x ∉ ({b * size + j2, b * size + j2 + size / 2} : Set ℕ)) := by
    refine (List.pairwise_lt_range (size / 2)).imp_of_mem ?_
    intro j1 j2 hj1 hj2 hlt x hx1 hx2
    rw [List.mem_range] at hj1 hj2
    rw [Set.mem_insert_iff, Set.mem_singleton_iff] at hx1 hx2
    rcases hx1 with e1 | e1 <;> rcases hx2 with e2 | e2 <;> omega
  have hH1 : ∀ (f : ℕ → ℂ) (j2 z : ℕ),
      z ∉ ({b * size + j2, b * size + j2 + size / 2} : Set ℕ) →
      bflyStep size (b * size) f j2 z = f z := by
    intro f j2 z hz
    exact bflyStep_frame size (b * size) f j2 z
      (fun e => hz (Set.mem_insert_iff.mpr (Or.inl e)))
      (fun e => hz (Set.mem_insert_iff.mpr (Or.inr (Set.mem_singleton_iff.mpr e))))
  have hne : b * size + j ≠ b * size + j + size / 2 := by omega
  constructor
  · rw [blockStep]
    rw [foldl_disjoint_eval (bflyStep size (b * size))
      (fun j2 => {b * size + j2, b * size + j2 + size / 2}) hH1
      (fun f ff j2 => bflyStep_congr size (b * size) f ff j2) _ hpair a j
      (List.mem_range.mpr (by omega)) (b * size + j) (Set.mem_insert_iff.mpr (Or.inl rfl))]
    rw [bflyStep, Function.update_noteq hne, Function.update_same, hhalf]
  · rw [blockStep]
    rw [foldl_disjoint_eval (bflyStep size (b * size))
      (fun j2 => {b * size + j2, b * size + j2 + size / 2}) hH1
      (fun f ff j2 => bflyStep_congr size (b * size) f ff j2) _ hpair a j
      (List.mem_range.mpr (by omega)) (b * size + j + half)
      (Set.mem_insert_iff.mpr (Or.inr (Set.mem_singleton_iff.mpr (by omega))))]
    rw [show b * size + j + half = b * size + j + size / 2 from by omega]
    rw [bflyStep, Function.update_same, hhalf]

theorem stageApply_eval (N size half : ℕ) (hs : size = 2 * half) (hh : 0 < half)
    (a : ℕ → ℂ) (b j : ℕ) (hb : b < N / size) (hj : j < half) :
    stageApply N size a (b * size + j)
        = a (b * size + j) + tw size j * a (b * size + j + half) ∧
    stageApply N size a (b * size + j + half)
        = a (b * size + j) - tw size j * a (b * size + j + half) := by
  have hH1 : ∀ (f : ℕ → ℂ) (b2 y : ℕ),
      y ∉ ({x | b2 * size ≤ x ∧ x < b2 * size + size} : Set ℕ) →
      blockStep size f b2 y = f y := by
    intro f b2 y hy
    refine blockStep_frame size f b2 y ?_
    rw [Set.mem_setOf_eq] at hy
    omega
  have hH2 : ∀ (f ff : ℕ → ℂ) (b2 : ℕ),
      (∀ x ∈ ({x | b2 * size ≤ x ∧ x < b2 * size + size} : Set ℕ), f x = ff x) →
      ∀ y ∈ ({x | b2 * size ≤ x ∧ x < b2 * size + size} : Set ℕ),
        blockStep size f b2 y = blockStep size ff b2 y := by
    intro f ff b2 hag y hy
    rw [Set.mem_setOf_eq] at hy
    exact blockStep_congr size f ff b2
      (fun x hx1 hx2 => hag x (Set.mem_setOf_eq.mpr ⟨hx1, hx2⟩)) y hy.1 hy.2
  have hpair : (List.range (N / size)).Pairwise
      (fun b1 b2 => ∀ x, x ∈ ({x | b1 * size ≤ x ∧ x < b1 * size + size} : Set ℕ) →
        x ∉ ({x | b2 * size ≤ x ∧ x < b2 * size + size} : Set ℕ)) := by
    refine (List.pairwise_lt_range (N / size)).imp_of_mem ?_
    intro b1 b2 _ _ hlt x hx1 hx2
    rw [Set.mem_setOf_eq] at hx1 hx2
    have he : (b1 + 1) * size ≤ b2 * size := Nat.mul_le_mul_right size (by omega)
    have e2 : (b1 + 1) * size = b1 * size + size := by ring
    omega
  have hmem1 : b * size + j ∈ ({x | b * size ≤ x ∧ x < b * size + size} : Set ℕ) := by
    rw [Set.mem_setOf_eq]
    omega
  have hmem2 : b * size + j + half ∈ ({x | b * size ≤ x ∧ x < b * size + size} : Set ℕ) := by
    rw [Set.mem_setOf_eq]
    omega
  constructor
  · rw [stageApply, foldl_disjoint_eval (blockStep size)
      (fun b2 => {x | b2 * size ≤ x ∧ x < b2 * size + size}) hH1 hH2 _ hpair a b
      (List.mem_range.mpr hb) (b * size + j) hmem1]
    exact (blockStep_eval size half hs hh a b j hj).1
  · rw [stageApply, foldl_disjoint_eval (blockStep size)
      (fun b2 => {x | b2 * size ≤ x ∧ x < b2 * size + size}) hH1 hH2 _ hpair a b
      (List.mem_range.mpr hb) (b * size + j + half) hmem2]
    exact (blockStep_eval size half hs hh a b j hj).2

/-! Twiddle-factor identities behind the decimation-in-time butterfly. -/

theorem exp_ofReal_mul_I_add (a b : ℝ) :
    Complex.exp (((a + b : ℝ) : ℂ) * Complex.I)
      = Complex.exp ((a : ℂ) * Complex.I) * Complex.exp ((b : ℂ) * Complex.I) := by
  rw [← Complex.exp_add]
  congr 1
  push_cast
  ring

theorem exp_neg_two_pi_nat_mul_I (t : ℕ) :
    Complex.exp (((-(2 * Real.pi) * t : ℝ) : ℂ) * Complex.I) = 1 := by
  rw [show (((-(2 * Real.pi) * t : ℝ) : ℂ)) * Complex.I
      = ((-(t : ℤ) : ℤ) : ℂ) * (2 * (Real.pi : ℂ) * Complex.I) from by push_cast; ring]
  exact Complex.exp_int_mul_two_pi_mul_I _

theorem exp_neg_pi_mul_I : Complex.exp (((-Real.pi : ℝ) : ℂ) * Complex.I) = -1 := by
  rw [show (((-Real.pi : ℝ) : ℂ)) * Complex.I = -((Real.pi : ℂ) * Complex.I) from by
      push_cast; ring,
    Complex.exp_neg, Complex.exp_pi_mul_I]
  norm_num

theorem tw_zero (N : ℕ) : tw N 0 = 1 := by
  rw [tw]
  norm_num [Complex.exp_zero]

theorem tw_one_zero : tw 1 0 = 1 := tw_zero 1

theorem tw_two_mul_even (M t k : ℕ) : tw (2 * M) (2 * t * k) = tw M (t * k) := by
  have h : ((-2) * Real.pi / ((2 * M : ℕ) : ℝ)) * ((2 * t * k : ℕ) : ℝ)
      = ((-2) * Real.pi / ((M : ℕ) : ℝ)) * ((t * k : ℕ) : ℝ) := by
    rcases Nat.eq_zero_or_pos M with h0 | h0
    · subst h0
      norm_num
    · have hM : (M : ℝ) ≠ 0 := by positivity
      push_cast
      field_simp
      ring
  rw [tw, tw, h]

theorem tw_two_mul_odd (M t k : ℕ) :
    tw (2 * M) ((2 * t + 1) * k) = tw M (t * k) * tw (2 * M) k := by
  have h : ((-2) * Real.pi / ((2 * M : ℕ) : ℝ)) * (((2 * t + 1) * k : ℕ) : ℝ)
      = ((-2) * Real.pi / ((M : ℕ) : ℝ)) * ((t * k : ℕ) : ℝ)
        + ((-2) * Real.pi / ((2 * M : ℕ) : ℝ)) * ((k : ℕ) : ℝ) := by
    rcases Nat.eq_zero_or_pos M with h0 | h0
    · subst h0
      norm_num
    · have hM : (M : ℝ) ≠ 0 := by positivity
      push_cast
      field_simp
      ring
  rw [tw, tw, tw, h, exp_ofReal_mul_I_add]

theorem tw_two_mul_even_shift (M t j : ℕ) (hM : 0 < M) :
    tw (2 * M) (2 * t * (j + M)) = tw M (t * j) := by
  have h : ((-2) * Real.pi / ((2 * M : ℕ) : ℝ)) * ((2 * t * (j + M) : ℕ) : ℝ)
      = ((-2) * Real.pi / ((M : ℕ) : ℝ)) * ((t * j : ℕ) : ℝ)
        + (-(2 * Real.pi) * (t : ℕ)) := by
    have hMr : (M : ℝ) ≠ 0 := by positivity
    push_cast
    field_simp
    ring
  rw [tw, tw, h, exp_ofReal_mul_I_add, exp_neg_two_pi_nat_mul_I, mul_one]

theorem tw_two_mul_odd_shift (M t j : ℕ) (hM : 0 < M) :
    tw (2 * M) ((2 * t + 1) * (j + M)) = -(tw M (t * j) * tw (2 * M) j) := by
  have h : ((-2) * Real.pi / ((2 * M : ℕ) : ℝ)) * (((2 * t + 1) * (j + M) : ℕ) : ℝ)
      = ((-2) * Real.pi / ((M : ℕ) : ℝ)) * ((t * j : ℕ) : ℝ)
        + (((-2) * Real.pi / ((2 * M : ℕ) : ℝ)) * ((j : ℕ) : ℝ)
          + ((-(2 * Real.pi) * (t : ℕ)) + (-Real.pi))) := by
    have hMr : (M : ℝ) ≠ 0 := by positivity
    push_cast
    field_simp
    ring
  rw [tw, tw, tw, h, exp_ofReal_mul_I_add, exp_ofReal_mul_I_add, exp_ofReal_mul_I_add,
    exp_neg_two_pi_nat_mul_I, exp_neg_pi_mul_I]
  ring

theorem sum_range_even_odd (M : ℕ) (f : ℕ → ℂ) :
    ∑ u ∈ Finset.range (2 * M), f u
      = ∑ t ∈ Finset.range M, f (2 * t) + ∑ t ∈ Finset.range M, f (2 * t + 1) := by
  induction M with
  | zero => simp
  | succ M ih =>
    rw [show 2 * (M + 1) = 2 * M + 1 + 1 from by ring, Finset.sum_range_succ,
      Finset.sum_range_succ, ih, Finset.sum_range_succ, Finset.sum_range_succ]
    ring_nf
    rw [show 2 * M + 1 = 1 + M * 2 from by ring]
    ring

theorem stagesUpTo_zero (bits : ℕ) (a0 : ℕ → ℂ) : stagesUpTo bits 0 a0 = a0 := by
  rw [stagesUpTo, List.range_zero, List.map_nil, List.foldl_nil]

theorem stagesUpTo_succ (bits s : ℕ) (a0 : ℕ → ℂ) :
    stagesUpTo bits (s + 1) a0
      = stageApply (2 ^ bits) (2 ^ (s + 1)) (stagesUpTo bits s a0) := by
  rw [stagesUpTo, stagesUpTo, List.range_succ, List.map_append, List.foldl_append,
    List.map_cons, List.map_nil, List.foldl_cons, List.foldl_nil]

/-- Loop invariant of the iterative Cooley–Tukey stages: after the stages of
sizes 2, ..., 2^s, the entry at position b*2^s + k holds the 2^s-point DFT,
evaluated at k, of the input subsequence with stride 2^(bits-s) and offset
reverseBits b (bits-s). -/
theorem stages_inv (bits : ℕ) (a : ℕ → ℂ) :
    ∀ s, s ≤ bits → ∀ b k : ℕ, b < 2 ^ (bits - s) → k < 2 ^ s →
      stagesUpTo bits s (bitRevPass bits a) (b * 2 ^ s + k)
        = ∑ t ∈ Finset.range (2 ^ s),
            a (t * 2 ^ (bits - s) + reverseBits b (bits - s)) * tw (2 ^ s) (t * k) := by
  intro s
  induction s with
  | zero =>
    intro _ b k hb hk
    have hk0 : k = 0 := by omega
    subst hk0
    rw [stagesUpTo_zero]
    rw [show b * 2 ^ 0 + 0 = b from by omega]
    rw [bitRevPass_eq bits a b (by simpa using hb)]
    simp [Finset.sum_range_one, tw_zero]
  | succ s ih =>
    intro hs1 b k hb hk
    have hsb : s ≤ bits := by omega
    have hM : (0 : ℕ) < 2 ^ s := Nat.pos_pow_of_pos s (by norm_num)
    set r := bits - (s + 1) with hr
    have hbs : bits - s = r + 1 := by omega
    have hsz : (2 : ℕ) ^ (s + 1) = 2 * 2 ^ s := by rw [pow_succ]; ring
    have hNdiv : 2 ^ bits / 2 ^ (s + 1) = 2 ^ r := by
      rw [Nat.pow_div hs1 (by norm_num)]
    have hstride : (2 : ℕ) ^ (bits - s) = 2 * 2 ^ r := by rw [hbs, pow_succ]; ring
    have hrev0 : reverseBits (2 * b) (bits - s) = reverseBits b r := by
      rw [hbs, reverseBits_succ]
      rw [show 2 * b % 2 = 0 from by omega, show 2 * b / 2 = b from by omega]
      omega
    have hrev1 : reverseBits (2 * b + 1) (bits - s) = 2 ^ r + reverseBits b r := by
      rw [hbs, reverseBits_succ]
      rw [show (2 * b + 1) % 2 = 1 from by omega, show (2 * b + 1) / 2 = b from by omega]
      omega
    have hb0 : 2 * b < 2 ^ (bits - s) := by rw [hstride]; omega
    have hb1 : 2 * b + 1 < 2 ^ (bits - s) := by rw [hstride]; omega
    rw [stagesUpTo_succ]
    rcases Nat.lt_or_ge k (2 ^ s) with hks | hks
    · have heval := stageApply_eval (2 ^ bits) (2 ^ (s + 1)) (2 ^ s) hsz hM
        (stagesUpTo bits s (bitRevPass bits a)) b k (by rw [hNdiv]; exact hb) hks
      rw [heval.1]
      rw [show b * 2 ^ (s + 1) + k = 2 * b * 2 ^ s + k from by rw [hsz]; ring]
      rw [show 2 * b * 2 ^ s + k + 2 ^ s = (2 * b + 1) * 2 ^ s + k from by ring]
      rw [ih hsb (2 * b) k hb0 hks, ih hsb (2 * b + 1) k hb1 hks]
      rw [hrev0, hrev1, hsz]
      rw [sum_range_even_odd (2 ^ s)
        (fun u => a (u * 2 ^ r + reverseBits b r) * tw (2 * 2 ^ s) (u * k))]
      have heven : ∀ t ∈ Finset.range (2 ^ s),
          a (2 * t * 2 ^ r + reverseBits b r) * tw (2 * 2 ^ s) (2 * t * k)
            = a (t * 2 ^ (bits - s) + reverseBits b r) * tw (2 ^ s) (t * k) := by
        intro t _
        rw [tw_two_mul_even, show 2 * t * 2 ^ r = t * 2 ^ (bits - s) from by
          rw [hstride]; ring]
      have hodd : ∀ t ∈ Finset.range (2 ^ s),
          a ((2 * t + 1) * 2 ^ r + reverseBits b r) * tw (2 * 2 ^ s) ((2 * t + 1) * k)
            = a (t * 2 ^ (bits - s) + (2 ^ r + reverseBits b r)) * tw (2 ^ s) (t * k)
              * tw (2 * 2 ^ s) k := by
        intro t _
        rw [tw_two_mul_odd, show (2 * t + 1) * 2 ^ r + reverseBits b r
            = t * 2 ^ (bits - s) + (2 ^ r + reverseBits b r) from by rw [hstride]; ring]
        ring
      rw [Finset.sum_congr rfl heven, Finset.sum_congr rfl hodd, ← Finset.sum_mul]
      ring
    · obtain ⟨j, rfl⟩ : ∃ j, k = j + 2 ^ s := ⟨k - 2 ^ s, by omega⟩
      have hj : j < 2 ^ s := by
        rw [hsz] at hk
        omega
      have heval := stageApply_eval (2 ^ bits) (2 ^ (s + 1)) (2 ^ s) hsz hM
        (stagesUpTo bits s (bitRevPass bits a)) b j (by rw [hNdiv]; exact hb) hj
      rw [show b * 2 ^ (s + 1) + (j + 2 ^ s) = b * 2 ^ (s + 1) + j + 2 ^ s from by ring]
      rw [heval.2]
      rw [show b * 2 ^ (s + 1) + j = 2 * b * 2 ^ s + j from by rw [hsz]; ring]
      rw [show 2 * b * 2 ^ s + j + 2 ^ s = (2 * b + 1) * 2 ^ s + j from by ring]
      rw [ih hsb (2 * b) j hb0 hj, ih hsb (2 * b + 1) j hb1 hj]
      rw [hrev0, hrev1, hsz]
      rw [sum_range_even_odd (2 ^ s)
        (fun u => a (u * 2 ^ r + reverseBits b r) * tw (2 * 2 ^ s) (u * (j + 2 ^ s)))]
      have heven : ∀ t ∈ Finset.range (2 ^ s),
          a (2 * t * 2 ^ r + reverseBits b r) * tw (2 * 2 ^ s) (2 * t * (j + 2 ^ s))
            = a (t * 2 ^ (bits - s) + reverseBits b r) * tw (2 ^ s) (t * j) := by
        intro t _
        rw [tw_two_mul_even_shift (2 ^ s) t j hM, show 2 * t * 2 ^ r = t * 2 ^ (bits - s) from by
          rw [hstride]; ring]
      have hodd : ∀ t ∈ Finset.range (2 ^ s),
          a ((2 * t + 1) * 2 ^ r + reverseBits b r) * tw (2 * 2 ^ s) ((2 * t + 1) * (j + 2 ^ s))
            = -(a (t * 2 ^ (bits - s) + (2 ^ r + reverseBits b r)) * tw (2 ^ s) (t * j)
              * tw (2 * 2 ^ s) j) := by
        intro t _
        rw [tw_two_mul_odd_shift (2 ^ s) t j hM, show (2 * t + 1) * 2 ^ r + reverseBits b r
            = t * 2 ^ (bits - s) + (2 ^ r + reverseBits b r) from by rw [hstride]; ring]
        ring
      rw [Finset.sum_congr rfl heven, Finset.sum_congr rfl hodd]
      rw [Finset.sum_neg_distrib, ← Finset.sum_mul]
      ring

/-- The iterative forwardFFT computes the discrete Fourier transform. -/
theorem forwardFFT_eq_dft (bits : ℕ) (a : ℕ → ℂ) (k : ℕ) (hk : k < 2 ^ bits) :
    forwardFFT bits a k = dft (2 ^ bits) a k := by
  have h := stages_inv bits a bits le_rfl 0 k (by norm_num) hk
  rw [show (0 : ℕ) * 2 ^ bits + k = k from by omega] at h
  rw [forwardFFT, h, dft]
  apply Finset.sum_congr rfl
  intro t _
  congr 2
  rw [Nat.sub_self, show reverseBits 0 0 = 0 from rfl, pow_zero]
  omega

theorem tw_eq_twInt (N j : ℕ) : tw N j = twInt N (j : ℤ) := by
  rw [tw, twInt]
  norm_num

theorem twInt_add (N : ℕ) (x y : ℤ) : twInt N (x + y) = twInt N x * twInt N y := by
  rw [twInt, twInt, twInt, show ((-2) * Real.pi / ((N : ℕ) : ℝ)) * ((x + y : ℤ) : ℝ)
      = ((-2) * Real.pi / ((N : ℕ) : ℝ)) * ((x : ℤ) : ℝ)
        + ((-2) * Real.pi / ((N : ℕ) : ℝ)) * ((y : ℤ) : ℝ) from by push_cast; ring,
    exp_ofReal_mul_I_add]

theorem twInt_nat_mul_pow (N : ℕ) (d : ℤ) (t : ℕ) :
    twInt N ((t : ℤ) * d) = twInt N d ^ t := by
  rw [twInt, twInt, ← Complex.exp_nat_mul]
  congr 1
  push_cast
  ring

theorem exp_neg_two_pi_int_mul_I (n : ℤ) :
    Complex.exp (((-(2 * Real.pi) * n : ℝ) : ℂ) * Complex.I) = 1 := by
  rw [show (((-(2 * Real.pi) * n : ℝ) : ℂ)) * Complex.I
      = ((-n : ℤ) : ℂ) * (2 * (Real.pi : ℂ) * Complex.I) from by push_cast; ring]
  exact Complex.exp_int_mul_two_pi_mul_I _

theorem twInt_N_mul (N : ℕ) (hN : 0 < N) (m : ℤ) : twInt N ((N : ℤ) * m) = 1 := by
  have hNr : ((N : ℕ) : ℝ) ≠ 0 := by positivity
  rw [twInt, show ((-2) * Real.pi / ((N : ℕ) : ℝ)) * (((N : ℤ) * m : ℤ) : ℝ)
      = -(2 * Real.pi) * ((m : ℤ) : ℝ) from by push_cast; field_simp; ring]
  exact exp_neg_two_pi_int_mul_I m

theorem twInt_ne_one (N : ℕ) (hN : 0 < N) (d : ℤ) (hd : ¬ (N : ℤ) ∣ d) :
    twInt N d ≠ 1 := by
  intro h
  rw [twInt, Complex.exp_eq_one_iff] at h
  obtain ⟨n, hn⟩ := h
  apply hd
  have hNr : ((N : ℕ) : ℝ) ≠ 0 := by positivity
  have hn2 : ((((-2) * Real.pi / ((N : ℕ) : ℝ) * ((d : ℤ) : ℝ)) : ℝ) : ℂ) * Complex.I
      = ((((n : ℤ) : ℝ) * (2 * Real.pi) : ℝ) : ℂ) * Complex.I := by
    rw [hn]
    push_cast
    ring
  have h2 : (-2) * Real.pi / ((N : ℕ) : ℝ) * ((d : ℤ) : ℝ)
      = ((n : ℤ) : ℝ) * (2 * Real.pi) :=
    Complex.ofReal_inj.mp (mul_right_cancel₀ Complex.I_ne_zero hn2)
  rw [div_mul_eq_mul_div, div_eq_iff hNr] at h2
  have h3 : (2 * Real.pi) * (((d : ℤ) : ℝ) + ((n : ℤ) : ℝ) * ((N : ℕ) : ℝ)) = 0 := by
    linear_combination -h2
  have h4 : ((d : ℤ) : ℝ) + ((n : ℤ) : ℝ) * ((N : ℕ) : ℝ) = 0 := by
    rcases mul_eq_zero.mp h3 with h | h
    · exfalso
      have := Real.pi_ne_zero
      apply this
      linarith
    · exact h
  have h5 : d + n * (N : ℤ) = 0 := by
    have : ((d + n * (N : ℤ) : ℤ) : ℝ) = 0 := by push_cast; linarith
    exact_mod_cast this
  exact ⟨-n, by linear_combination h5⟩

theorem twInt_geom_sum (N : ℕ) (hN : 0 < N) (d : ℤ) :
    ∑ t ∈ Finset.range N, twInt N ((t : ℤ) * d)
      = if (N : ℤ) ∣ d then (N : ℂ) else 0 := by
  split
  · rename_i hdvd
    obtain ⟨m, rfl⟩ := hdvd
    have hterm : ∀ t ∈ Finset.range N, twInt N ((t : ℤ) * ((N : ℤ) * m)) = 1 := by
      intro t _
      rw [show (t : ℤ) * ((N : ℤ) * m) = (N : ℤ) * ((t : ℤ) * m) from by ring,
        twInt_N_mul N hN]
    rw [Finset.sum_congr rfl hterm, Finset.sum_const, Finset.card_range]
    simp
  · rename_i hdvd
    have hζ : twInt N d ≠ 1 := twInt_ne_one N hN d hdvd
    have hterm : ∀ t ∈ Finset.range N, twInt N ((t : ℤ) * d) = twInt N d ^ t :=
      fun t _ => twInt_nat_mul_pow N d t
    rw [Finset.sum_congr rfl hterm, geom_sum_eq hζ]
    rw [show twInt N d ^ N = twInt N ((N : ℤ) * d) from by rw [twInt_nat_mul_pow],
      twInt_N_mul N hN d]
    simp

theorem conj_twInt (N : ℕ) (m : ℤ) :
    (starRingEnd ℂ) (twInt N m) = twInt N (-m) := by
  rw [twInt, twInt, ← Complex.exp_conj, map_mul, Complex.conj_ofReal, Complex.conj_I]
  congr 1
  push_cast
  ring

/-- Claim C1: FFT round trip. For every window of N = 2^bits complex samples
whose imaginary parts are all zero, running forwardFFT and then inverseFFT
(conjugate, forwardFFT, conjugate, divide by N) returns the original window
exactly on every bin, over exact real arithmetic. -/
theorem C1_fft_round_trip (bits : ℕ) (w : ℕ → ℂ)
    (him : ∀ t, t < 2 ^ bits → (w t).im = 0) (k : ℕ) (hk : k < 2 ^ bits) :
    inverseFFT bits (forwardFFT bits w) k = w k := by
  have hN0 : 0 < 2 ^ bits := Nat.pos_pow_of_pos bits (by norm_num)
  have hNC : ((2 ^ bits : ℕ) : ℂ) ≠ 0 := Nat.cast_ne_zero.mpr (by omega)
  simp only [inverseFFT]
  rw [if_pos hk]
  rw [forwardFFT_eq_dft bits _ k hk, dft]
  have hstep1 : ∀ t ∈ Finset.range (2 ^ bits),
      conjPass (2 ^ bits) (forwardFFT bits w) t * tw (2 ^ bits) (t * k)
        = ∑ u ∈ Finset.range (2 ^ bits),
            (starRingEnd ℂ) (w u) * twInt (2 ^ bits) ((t : ℤ) * ((k : ℤ) - (u : ℤ))) := by
    intro t ht
    have ht' := Finset.mem_range.mp ht
    rw [conjPass]
    rw [if_pos ht', forwardFFT_eq_dft bits w t ht', dft, map_sum, Finset.sum_mul]
    apply Finset.sum_congr rfl
    intro u _
    rw [map_mul, tw_eq_twInt, tw_eq_twInt, conj_twInt, mul_assoc, ← twInt_add]
    congr 2
    push_cast
    ring
  rw [Finset.sum_congr rfl hstep1, Finset.sum_comm]
  have hstep3 : ∀ u ∈ Finset.range (2 ^ bits),
      (∑ t ∈ Finset.range (2 ^ bits),
          (starRingEnd ℂ) (w u) * twInt (2 ^ bits) ((t : ℤ) * ((k : ℤ) - (u : ℤ))))
        = (starRingEnd ℂ) (w u) * (if u = k then ((2 ^ bits : ℕ) : ℂ) else 0) := by
    intro u hu
    rw [← Finset.mul_sum, twInt_geom_sum (2 ^ bits) hN0]
    congr 1
    by_cases he : u = k
    · subst he
      rw [if_pos (by simp), if_pos rfl]
    · have hu' := Finset.mem_range.mp hu
      rw [if_neg ?hd, if_neg he]
      case hd =>
        intro hdvd
        apply he
        obtain ⟨m, hm⟩ := hdvd
        have hm0 : m = 0 := by
          rcases lt_trichotomy m 0 with h | h | h
          · have : ((2 ^ bits : ℕ) : ℤ) * m ≤ ((2 ^ bits : ℕ) : ℤ) * (-1) :=
              mul_le_mul_of_nonneg_left (by omega) (by positivity)
            omega
          · exact h
          · have : ((2 ^ bits : ℕ) : ℤ) * 1 ≤ ((2 ^ bits : ℕ) : ℤ) * m :=
              mul_le_mul_of_nonneg_left (by omega) (by positivity)
            omega
        rw [hm0, mul_zero] at hm
        omega
  rw [Finset.sum_congr rfl hstep3]
  rw [Finset.sum_eq_single k
    (fun u _ hne => by rw [if_neg hne, mul_zero])
    (fun h => absurd (Finset.mem_range.mpr hk) h)]
  rw [if_pos rfl, map_mul, Complex.conj_conj, map_natCast]
  exact mul_div_cancel_right₀ (w k) hNC

/-- Witness for C1 at bits = 0 with the constant real window 1. -/
theorem C1_fft_round_trip_witness :
    inverseFFT 0 (forwardFFT 0 (fun _ => (1 : ℂ))) 0 = (1 : ℂ) :=
  C1_fft_round_trip 0 (fun _ => (1 : ℂ))
    (fun t _ => by simp) 0 (by norm_num)
